import Mathlib

/-!
# Verification of the Quantum Math Lab state-vector simulator

This file is a shallow embedding, in Lean 4, of `src/quantum_simulator.py`
(class `QuantumCircuit`, dataclass `MeasurementResult` and the module-level
helpers `_distribution_from_probabilities`, `_H`, `_X`, `_CNOT`).

Modelling conventions:
* The NumPy complex128 amplitude vector is modelled as a function `ℕ → ℂ`
  (exact complex arithmetic in place of floating point); only indices
  `< 2^num_qubits` are meaningful.
* Python `str` bit strings (characters '0'/'1', compared lexicographically)
  are modelled as `List ℕ` of bit values; lexicographic order on such lists
  coincides with lexicographic order on the corresponding strings since the
  character '0' precedes '1'.
* Python dictionaries (which preserve insertion order) are modelled as
  association lists in insertion order.
* `raise` is modelled by `Except String`: a method that raises returns
  `.error` and produces no new register state, which mirrors the fact that
  in the Python code every `raise` precedes the (single) assignment to
  `self._state`, so a failing call leaves the amplitude vector unchanged.
* The injected `numpy.random.Generator` is modelled as an oracle function
  receiving exactly the data the code passes to `rng.choice`
  (`len(bitstrings)`, `shots`, the probability vector `p`) and returning
  the list of sampled indices.

The index conventions follow the source: the register state reshaped to an
`n`-dimensional binary tensor has one axis per qubit, axis `q` being bit
`n-1-q` of the flat index (most-significant-bit first, qubit 0 leftmost).
-/

noncomputable section

/-- Bit of qubit `q` (MSB-first) in the flat index `i` of an `n`-qubit
register: bit `n-1-q` of `i`. -/
def bitOf (n q i : ℕ) : ℕ := i / 2 ^ (n - 1 - q) % 2

/-- Reassemble a flat index from its MSB-first bit assignment `b`
(`b q` is the bit of qubit `q`). -/
def unbits (n : ℕ) (b : ℕ → ℕ) : ℕ := ∑ q ∈ Finset.range n, b q * 2 ^ (n - 1 - q)

theorem bitOf_le_one (n q i : ℕ) : bitOf n q i ≤ 1 :=
  Nat.lt_succ_iff.mp (Nat.mod_lt _ (by norm_num))

theorem sum_two_pow (n : ℕ) : ∑ i ∈ Finset.range n, 2 ^ i = 2 ^ n - 1 := by
  induction n with
  | zero => simp
  | succ m ih =>
    have h : 1 ≤ 2 ^ m := Nat.one_le_two_pow
    rw [Finset.sum_range_succ, ih, pow_succ]
    omega

theorem unbits_lt (n : ℕ) (b : ℕ → ℕ) (hb : ∀ q < n, b q ≤ 1) :
    unbits n b < 2 ^ n := by
  have h1 : unbits n b ≤ ∑ q ∈ Finset.range n, 2 ^ (n - 1 - q) := by
    apply Finset.sum_le_sum
    intro q hq
    have := hb q (Finset.mem_range.mp hq)
    calc b q * 2 ^ (n - 1 - q) ≤ 1 * 2 ^ (n - 1 - q) := Nat.mul_le_mul_right _ this
      _ = 2 ^ (n - 1 - q) := one_mul _
  have h2 : ∑ q ∈ Finset.range n, 2 ^ (n - 1 - q) = ∑ q ∈ Finset.range n, 2 ^ q := by
    rw [← Finset.sum_range_reflect (fun q => (2 : ℕ) ^ q) n]
  have h3 : (1 : ℕ) ≤ 2 ^ n := Nat.one_le_two_pow
  have h4 := sum_two_pow n
  omega

/-- Extracting bit `q+1` of an `(n+1)`-bit index is extracting bit `q`
of the low `n` bits. -/
theorem bitOf_succ (n q x : ℕ) (hq : q < n) :
    bitOf (n + 1) (q + 1) x = bitOf n q (x % 2 ^ n) := by
  unfold bitOf
  have he : n + 1 - 1 - (q + 1) = n - 1 - q := by omega
  rw [he]
  have hdn : n - 1 - q ≤ n - 1 := by omega
  have hsplit : x = 2 ^ (n - 1 - q) * (2 ^ (n - (n - 1 - q)) * (x / 2 ^ n)) + x % 2 ^ n := by
    rw [← mul_assoc, ← pow_add]
    have hh : n - 1 - q + (n - (n - 1 - q)) = n := by omega
    rw [hh]
    exact (Nat.div_add_mod x (2 ^ n)).symm
  conv_lhs => rw [hsplit]
  rw [Nat.mul_add_div (Nat.pos_pow_of_pos _ (by norm_num))]
  have h2 : 2 ^ (n - (n - 1 - q)) * (x / 2 ^ n) = 2 * (2 ^ (n - (n - 1 - q) - 1) * (x / 2 ^ n)) := by
    rw [← mul_assoc, ← pow_succ']
    have hh : n - (n - 1 - q) - 1 + 1 = n - (n - 1 - q) := by omega
    rw [hh]
  rw [h2, Nat.mul_add_mod]

/-- Bit 0 of an `(n+1)`-bit index `x < 2^(n+1)` is its top bit. -/
theorem bitOf_zero (n x : ℕ) (hx : x < 2 ^ (n + 1)) :
    bitOf (n + 1) 0 x = x / 2 ^ n := by
  unfold bitOf
  have h1 : n + 1 - 1 - 0 = n := by omega
  rw [h1]
  have h2 : x / 2 ^ n < 2 := by
    apply Nat.div_lt_of_lt_mul
    rw [← pow_succ]
    exact hx
  exact Nat.mod_eq_of_lt h2

/-- Binary expansion: every `x < 2^n` is the weighted sum of its bits. -/
theorem unbits_bitOf (n : ℕ) (x : ℕ) (hx : x < 2 ^ n) :
    unbits n (fun q => bitOf n q x) = x := by
  induction n generalizing x with
  | zero => unfold unbits; simp at hx ⊢; omega
  | succ m ih =>
    unfold unbits
    rw [Finset.sum_range_succ']
    have hhead : bitOf (m + 1) 0 x * 2 ^ (m + 1 - 1 - 0) = x / 2 ^ m * 2 ^ m := by
      rw [bitOf_zero m x hx]
      have hh : m + 1 - 1 - 0 = m := by omega
      rw [hh]
    have htail : ∀ q ∈ Finset.range m,
        bitOf (m + 1) (q + 1) x * 2 ^ (m + 1 - 1 - (q + 1)) =
        bitOf m q (x % 2 ^ m) * 2 ^ (m - 1 - q) := by
      intro q hq
      have hq' := Finset.mem_range.mp hq
      rw [bitOf_succ m q x hq']
      have hh : m + 1 - 1 - (q + 1) = m - 1 - q := by omega
      rw [hh]
    rw [Finset.sum_congr rfl htail, hhead]
    have hmod : x % 2 ^ m < 2 ^ m := Nat.mod_lt _ (Nat.pos_pow_of_pos _ (by norm_num))
    have hihx : (∑ q ∈ Finset.range m, bitOf m q (x % 2 ^ m) * 2 ^ (m - 1 - q)) = x % 2 ^ m :=
      ih (x % 2 ^ m) hmod
    rw [hihx]
    exact Nat.mod_add_div' x (2 ^ m)

/-- Bits of a reassembled index recover the bit assignment. -/
theorem bitOf_unbits (n : ℕ) :
    ∀ (b : ℕ → ℕ), (∀ q < n, b q ≤ 1) → ∀ q < n, bitOf n q (unbits n b) = b q := by
  induction n with
  | zero => intro b hb q hq; omega
  | succ m ih =>
    intro b hb
    have hbt : ∀ q < m, b (q + 1) ≤ 1 := by
      intro q hq
      exact hb (q + 1) (by omega)
    have hsplit : unbits (m + 1) b =
        b 0 * 2 ^ m + ∑ q ∈ Finset.range m, b (q + 1) * 2 ^ (m - 1 - q) := by
      unfold unbits
      rw [Finset.sum_range_succ']
      have h0 : b 0 * 2 ^ (m + 1 - 1 - 0) = b 0 * 2 ^ m := by
        have hh : m + 1 - 1 - 0 = m := by omega
        rw [hh]
      have ht : ∀ q ∈ Finset.range m,
          b (q + 1) * 2 ^ (m + 1 - 1 - (q + 1)) = b (q + 1) * 2 ^ (m - 1 - q) := by
        intro q hq
        have hh : m + 1 - 1 - (q + 1) = m - 1 - q := by omega
        rw [hh]
      rw [Finset.sum_congr rfl ht, h0]
      omega
    have hu : (∑ q ∈ Finset.range m, b (q + 1) * 2 ^ (m - 1 - q)) < 2 ^ m :=
      unbits_lt m (fun q => b (q + 1)) hbt
    intro q hq
    match q with
    | 0 =>
      have hlt : unbits (m + 1) b < 2 ^ (m + 1) := by
        rw [hsplit, pow_succ]
        have hb0 := hb 0 (by omega)
        have h5 : b 0 * 2 ^ m ≤ 1 * 2 ^ m := Nat.mul_le_mul_right _ hb0
        omega
      rw [bitOf_zero m _ hlt, hsplit, add_comm,
        Nat.add_mul_div_right _ _ (Nat.pos_pow_of_pos _ (by norm_num)),
        Nat.div_eq_of_lt hu]
      exact Nat.zero_add _
    | q + 1 =>
      have hq' : q < m := by omega
      rw [bitOf_succ m q _ hq', hsplit]
      have hmod : (b 0 * 2 ^ m + ∑ q ∈ Finset.range m, b (q + 1) * 2 ^ (m - 1 - q)) % 2 ^ m =
          ∑ q ∈ Finset.range m, b (q + 1) * 2 ^ (m - 1 - q) := by
        rw [add_comm, Nat.add_mul_mod_self_right, Nat.mod_eq_of_lt hu]
      rw [hmod]
      have hihq : bitOf m q (unbits m fun q => b (q + 1)) = b (q + 1) :=
        ih (fun q => b (q + 1)) hbt q hq'
      exact hihq

/-- Two `n`-bit indices with equal bit assignments are equal. -/
theorem eq_of_bitOf_eq (n x y : ℕ) (hx : x < 2 ^ n) (hy : y < 2 ^ n)
    (h : ∀ q < n, bitOf n q x = bitOf n q y) : x = y := by
  have h1 : unbits n (fun q => bitOf n q x) = unbits n (fun q => bitOf n q y) := by
    unfold unbits
    apply Finset.sum_congr rfl
    intro q hq
    exact congrArg (fun t => t * 2 ^ (n - 1 - q)) (h q (Finset.mem_range.mp hq))
  rw [unbits_bitOf n x hx, unbits_bitOf n y hy] at h1
  exact h1

/-! ## Mixed-radix index decomposition -/

theorem sum_range_split {M : Type*} [AddCommMonoid M] (k m : ℕ) (f : ℕ → M) :
    ∑ q ∈ Finset.range (k + m), f q =
      (∑ q ∈ Finset.range k, f q) + ∑ j ∈ Finset.range m, f (k + j) := by
  have hmm : k + m - k = m := by omega
  rw [Finset.range_eq_Ico, ← Finset.sum_Ico_consecutive _ (Nat.zero_le k) (Nat.le_add_right k m),
    ← Finset.range_eq_Ico, Finset.sum_Ico_eq_sum_range, hmm]

theorem mul_add_lt_pow (k m r c : ℕ) (hr : r < 2 ^ k) (hc : c < 2 ^ m) :
    r * 2 ^ m + c < 2 ^ (k + m) := by
  have h1 : (r + 1) * 2 ^ m ≤ 2 ^ k * 2 ^ m := Nat.mul_le_mul_right _ (by omega)
  rw [pow_add]
  have h2 : r * 2 ^ m + 2 ^ m = (r + 1) * 2 ^ m := by ring
  omega

theorem unbits_glue (k m r c : ℕ) (hr : r < 2 ^ k) (hc : c < 2 ^ m) :
    unbits (k + m) (fun q => if q < k then bitOf k q r else bitOf m (q - k) c) =
      r * 2 ^ m + c := by
  unfold unbits
  rw [sum_range_split]
  have hpart1 : ∑ q ∈ Finset.range k,
      (if q < k then bitOf k q r else bitOf m (q - k) c) * 2 ^ (k + m - 1 - q) = r * 2 ^ m := by
    have hstep : ∀ q ∈ Finset.range k,
        (if q < k then bitOf k q r else bitOf m (q - k) c) * 2 ^ (k + m - 1 - q) =
        bitOf k q r * 2 ^ (k - 1 - q) * 2 ^ m := by
      intro q hq
      have hq' := Finset.mem_range.mp hq
      rw [if_pos hq', mul_assoc, ← pow_add]
      have hh : k - 1 - q + m = k + m - 1 - q := by omega
      rw [hh]
    rw [Finset.sum_congr rfl hstep, ← Finset.sum_mul]
    have h2 : (∑ q ∈ Finset.range k, bitOf k q r * 2 ^ (k - 1 - q)) = r := unbits_bitOf k r hr
    rw [h2]
  have hpart2 : ∑ j ∈ Finset.range m,
      (if k + j < k then bitOf k (k + j) r else bitOf m (k + j - k) c) * 2 ^ (k + m - 1 - (k + j)) = c := by
    have hstep : ∀ j ∈ Finset.range m,
        (if k + j < k then bitOf k (k + j) r else bitOf m (k + j - k) c) * 2 ^ (k + m - 1 - (k + j)) =
        bitOf m j c * 2 ^ (m - 1 - j) := by
      intro j hj
      have hj' := Finset.mem_range.mp hj
      rw [if_neg (by omega)]
      have h1 : k + j - k = j := by omega
      have h2 : k + m - 1 - (k + j) = m - 1 - j := by omega
      rw [h1, h2]
    rw [Finset.sum_congr rfl hstep]
    exact unbits_bitOf m c hc
  rw [hpart1, hpart2]

/-- Bits of the combined index `r * 2^m + c`: the high `k` bits come from
`r`, the low `m` bits from `c`. -/
theorem bitOf_mul_add (k m r c : ℕ) (hr : r < 2 ^ k) (hc : c < 2 ^ m) :
    ∀ q < k + m, bitOf (k + m) q (r * 2 ^ m + c) =
      if q < k then bitOf k q r else bitOf m (q - k) c := by
  intro q hq
  have hb : ∀ q < k + m, (if q < k then bitOf k q r else bitOf m (q - k) c) ≤ 1 := by
    intro q _
    by_cases hqk : q < k
    · rw [if_pos hqk]; exact bitOf_le_one _ _ _
    · rw [if_neg hqk]; exact bitOf_le_one _ _ _
  rw [← unbits_glue k m r c hr hc]
  exact bitOf_unbits (k + m) _ hb q hq

/-! ## Small list lemmas (getD / indexOf bookkeeping) -/

theorem getD_range (n j : ℕ) (hj : j < n) (d : ℕ) : (List.range n).getD j d = j := by
  rw [List.getD_eq_getElem?_getD, List.getElem?_range hj]
  rfl

theorem getD_map_range {α : Type*} (n j : ℕ) (f : ℕ → α) (d : α) (hj : j < n) :
    ((List.range n).map f).getD j d = f j := by
  rw [List.getD_eq_getElem?_getD, List.getElem?_map, List.getElem?_range hj]
  rfl

theorem indexOf_append_left (l₁ l₂ : List ℕ) (a : ℕ) (h : a ∈ l₁) :
    (l₁ ++ l₂).indexOf a = l₁.indexOf a := by
  induction l₁ with
  | nil => cases h
  | cons b l ih =>
    rw [List.cons_append, List.indexOf_cons, List.indexOf_cons]
    by_cases hb : b = a
    · simp [hb]
    · have hbeq : (b == a) = false := by simp [hb]
      rw [hbeq]
      simp only [cond_false]
      have ha : a ∈ l := by
        cases h with
        | head => exact absurd rfl hb
        | tail _ h' => exact h'
      rw [ih ha]

theorem indexOf_append_right (l₁ l₂ : List ℕ) (a : ℕ) (h : a ∉ l₁) :
    (l₁ ++ l₂).indexOf a = l₁.length + l₂.indexOf a := by
  induction l₁ with
  | nil => simp
  | cons b l ih =>
    have hb : (b == a) = false := by
      simp only [beq_eq_false_iff_ne, ne_eq]
      intro hba
      exact h (hba ▸ List.mem_cons_self b l)
    have ha : a ∉ l := fun h' => h (List.mem_cons_of_mem b h')
    rw [List.cons_append, List.indexOf_cons, hb]
    simp only [cond_false]
    rw [ih ha, List.length_cons]
    omega

theorem indexOf_lt_len (l : List ℕ) (a : ℕ) (h : a ∈ l) : l.indexOf a < l.length :=
  List.indexOf_lt_length.mpr h

theorem getD_indexOf_self (l : List ℕ) (a : ℕ) (h : a ∈ l) (d : ℕ) :
    l.getD (l.indexOf a) d = a := by
  have hlt := indexOf_lt_len l a h
  rw [List.getD_eq_getElem?_getD]
  rw [List.getElem?_eq_getElem hlt]
  simp only [Option.getD_some]
  exact List.indexOf_get hlt

theorem indexOf_getD_self (l : List ℕ) (hnd : l.Nodup) (j : ℕ) (hj : j < l.length) (d : ℕ) :
    l.indexOf (l.getD j d) = j := by
  have h1 : l.getD j d = l.get ⟨j, hj⟩ := by
    rw [List.getD_eq_getElem?_getD, List.getElem?_eq_getElem hj]
    simp [List.get_eq_getElem]
  rw [h1]
  exact List.get_indexOf hnd ⟨j, hj⟩

/-! ## Axis permutations (mirroring `np.transpose` / `np.argsort`) -/

/-- A list describing a permutation of the `n` tensor axes: length `n`,
no duplicates, entries `< n` (exactly the lists accepted by `np.transpose`). -/
def IsValidPerm (n : ℕ) (p : List ℕ) : Prop :=
  p.length = n ∧ p.Nodup ∧ ∀ m ∈ p, m < n

/-- `permutation = list(qubit_tuple) + [i for i in range(n) if i not in qubit_tuple]`
from `_apply_unitary`, `probabilities` and `_collapse_state`. -/
def permOf (n : ℕ) (qs : List ℕ) : List ℕ :=
  qs ++ (List.range n).filter (fun i => decide (i ∉ qs))

/-- `np.argsort(permutation)`: for a permutation list, entry `m` is the
position of value `m` in the list. -/
def argsortPerm (n : ℕ) (p : List ℕ) : List ℕ :=
  (List.range n).map (fun m => p.indexOf m)

/-- The flattened result of `np.transpose(state_tensor, perm)` at flat index
`i` reads the original tensor at the index whose bit at axis `perm[j]` is
bit `j` of `i`: bit `j` of `i` is scattered to position `perm[j]`. -/
def scatterIdx (n : ℕ) (perm : List ℕ) (i : ℕ) : ℕ :=
  ∑ j ∈ Finset.range n, bitOf n j i * 2 ^ (n - 1 - perm.getD j 0)

theorem IsValidPerm.mem_of_lt {n : ℕ} {p : List ℕ} (hp : IsValidPerm n p)
    {m : ℕ} (hm : m < n) : m ∈ p := by
  obtain ⟨hlen, hnd, hlt⟩ := hp
  have hsub : p.toFinset ⊆ Finset.range n := by
    intro x hx
    rw [List.mem_toFinset] at hx
    exact Finset.mem_range.mpr (hlt x hx)
  have hcard : (Finset.range n).card ≤ p.toFinset.card := by
    rw [Finset.card_range, List.toFinset_card_of_nodup hnd, hlen]
  have heq := Finset.eq_of_subset_of_card_le hsub hcard
  have : m ∈ p.toFinset := heq ▸ Finset.mem_range.mpr hm
  rwa [List.mem_toFinset] at this

theorem IsValidPerm.getD_lt {n : ℕ} {p : List ℕ} (hp : IsValidPerm n p)
    {j : ℕ} (hj : j < n) : p.getD j 0 < n := by
  obtain ⟨hlen, _, hlt⟩ := hp
  apply hlt
  have hj' : j < p.length := by omega
  rw [List.getD_eq_getElem?_getD, List.getElem?_eq_getElem hj']
  exact List.getElem_mem _

theorem IsValidPerm.indexOf_lt {n : ℕ} {p : List ℕ} (hp : IsValidPerm n p)
    {m : ℕ} (hm : m < n) : p.indexOf m < n := by
  have h := indexOf_lt_len p m (hp.mem_of_lt hm)
  have hlen := hp.1
  omega

theorem IsValidPerm.indexOf_getD {n : ℕ} {p : List ℕ} (hp : IsValidPerm n p)
    {j : ℕ} (hj : j < n) : p.indexOf (p.getD j 0) = j := by
  obtain ⟨hlen, hnd, _⟩ := hp
  exact indexOf_getD_self p hnd j (by omega) 0

theorem IsValidPerm.getD_indexOf {n : ℕ} {p : List ℕ} (hp : IsValidPerm n p)
    {m : ℕ} (hm : m < n) : p.getD (p.indexOf m) 0 = m :=
  getD_indexOf_self p m (hp.mem_of_lt hm) 0

/-- `argsortPerm n p` is itself a valid permutation when `p` is. -/
theorem argsortPerm_valid {n : ℕ} {p : List ℕ} (hp : IsValidPerm n p) :
    IsValidPerm n (argsortPerm n p) := by
  refine ⟨by simp [argsortPerm], ?_, ?_⟩
  · rw [argsortPerm, List.nodup_map_iff_inj_on (List.nodup_range n)]
    intro a ha b hb hab
    rw [List.mem_range] at ha hb
    have h1 := hp.getD_indexOf ha
    have h2 := hp.getD_indexOf hb
    rw [hab] at h1
    rw [h1] at h2
    exact h2
  · intro m hm
    rw [argsortPerm, List.mem_map] at hm
    obtain ⟨a, ha, rfl⟩ := hm
    exact hp.indexOf_lt (List.mem_range.mp ha)

theorem argsortPerm_getD {n : ℕ} (p : List ℕ) {j : ℕ} (hj : j < n) :
    (argsortPerm n p).getD j 0 = p.indexOf j :=
  getD_map_range n j _ 0 hj

/-- Positions in `argsortPerm n p`: the value `j` sits at position `p.getD j`. -/
theorem argsortPerm_indexOf {n : ℕ} {p : List ℕ} (hp : IsValidPerm n p)
    {j : ℕ} (hj : j < n) : (argsortPerm n p).indexOf j = p.getD j 0 := by
  have hv := argsortPerm_valid hp
  have hjp : p.getD j 0 < n := hp.getD_lt hj
  have h1 : (argsortPerm n p).getD (p.getD j 0) 0 = j := by
    rw [argsortPerm_getD p hjp]
    exact hp.indexOf_getD hj
  obtain ⟨hlen, hnd, _⟩ := hv
  have := indexOf_getD_self (argsortPerm n p) hnd (p.getD j 0) (by omega) 0
  rw [h1] at this
  exact this

theorem scatterIdx_eq_unbits {n : ℕ} {p : List ℕ} (hp : IsValidPerm n p) (i : ℕ) :
    scatterIdx n p i = unbits n (fun m => bitOf n (p.indexOf m) i) := by
  unfold scatterIdx unbits
  refine Finset.sum_nbij' (fun j => p.getD j 0) (fun m => p.indexOf m) ?_ ?_ ?_ ?_ ?_
  · intro j hj
    exact Finset.mem_range.mpr (hp.getD_lt (Finset.mem_range.mp hj))
  · intro m hm
    exact Finset.mem_range.mpr (hp.indexOf_lt (Finset.mem_range.mp hm))
  · intro j hj
    exact hp.indexOf_getD (Finset.mem_range.mp hj)
  · intro m hm
    exact hp.getD_indexOf (Finset.mem_range.mp hm)
  · intro j hj
    show bitOf n j i * 2 ^ (n - 1 - p.getD j 0) =
      bitOf n (p.indexOf (p.getD j 0)) i * 2 ^ (n - 1 - p.getD j 0)
    rw [hp.indexOf_getD (Finset.mem_range.mp hj)]

theorem scatterIdx_lt {n : ℕ} {p : List ℕ} (hp : IsValidPerm n p) (i : ℕ) :
    scatterIdx n p i < 2 ^ n := by
  rw [scatterIdx_eq_unbits hp i]
  exact unbits_lt n _ (fun q _ => bitOf_le_one _ _ _)

/-- Bit `m` of the transposed flat index reads bit `p.indexOf m` of the
original index. -/
theorem bitOf_scatterIdx {n : ℕ} {p : List ℕ} (hp : IsValidPerm n p) (i : ℕ)
    {m : ℕ} (hm : m < n) :
    bitOf n m (scatterIdx n p i) = bitOf n (p.indexOf m) i := by
  rw [scatterIdx_eq_unbits hp i]
  exact bitOf_unbits n _ (fun q _ => bitOf_le_one _ _ _) m hm

/-- Transposing by `p` then by `np.argsort(p)` restores the index. -/
theorem scatterIdx_scatterIdx_argsort {n : ℕ} {p : List ℕ} (hp : IsValidPerm n p)
    {x : ℕ} (hx : x < 2 ^ n) :
    scatterIdx n p (scatterIdx n (argsortPerm n p) x) = x := by
  have hv := argsortPerm_valid hp
  apply eq_of_bitOf_eq n _ _ (scatterIdx_lt hp _) hx
  intro m hm
  rw [bitOf_scatterIdx hp _ hm]
  have him : p.indexOf m < n := hp.indexOf_lt hm
  rw [bitOf_scatterIdx hv x him, argsortPerm_indexOf hp him, hp.getD_indexOf hm]

/-- Transposing by `np.argsort(p)` then by `p` restores the index. -/
theorem scatterIdx_argsort_scatterIdx {n : ℕ} {p : List ℕ} (hp : IsValidPerm n p)
    {x : ℕ} (hx : x < 2 ^ n) :
    scatterIdx n (argsortPerm n p) (scatterIdx n p x) = x := by
  have hv := argsortPerm_valid hp
  apply eq_of_bitOf_eq n _ _ (scatterIdx_lt hv _) hx
  intro m hm
  rw [bitOf_scatterIdx hv _ hm]
  have him : (argsortPerm n p).indexOf m < n := hv.indexOf_lt hm
  rw [bitOf_scatterIdx hp x him, argsortPerm_indexOf hp hm, hp.indexOf_getD hm]

/-- Summing any function over all transposed indices equals summing it over
all indices: transposition permutes the basis. -/
theorem sum_scatterIdx {M : Type*} [AddCommMonoid M] {n : ℕ} {p : List ℕ}
    (hp : IsValidPerm n p) (F : ℕ → M) :
    ∑ x ∈ Finset.range (2 ^ n), F (scatterIdx n p x) = ∑ x ∈ Finset.range (2 ^ n), F x := by
  refine Finset.sum_nbij' (fun x => scatterIdx n p x) (fun x => scatterIdx n (argsortPerm n p) x)
    ?_ ?_ ?_ ?_ ?_
  · intro a ha
    exact Finset.mem_range.mpr (scatterIdx_lt hp a)
  · intro a ha
    exact Finset.mem_range.mpr (scatterIdx_lt (argsortPerm_valid hp) a)
  · intro a ha
    exact scatterIdx_argsort_scatterIdx hp (Finset.mem_range.mp ha)
  · intro a ha
    exact scatterIdx_scatterIdx_argsort hp (Finset.mem_range.mp ha)
  · intro a ha
    rfl

/-! ## The permutation built from a qubit tuple -/

theorem length_le_of_nodup_lt {n : ℕ} {qs : List ℕ} (hnd : qs.Nodup)
    (hlt : ∀ q ∈ qs, q < n) : qs.length ≤ n := by
  have hsub : qs.toFinset ⊆ Finset.range n := by
    intro x hx
    rw [List.mem_toFinset] at hx
    exact Finset.mem_range.mpr (hlt x hx)
  have := Finset.card_le_card hsub
  rw [List.toFinset_card_of_nodup hnd, Finset.card_range] at this
  exact this

theorem mem_permOf_filter {n : ℕ} {qs : List ℕ} {m : ℕ} :
    m ∈ (List.range n).filter (fun i => decide (i ∉ qs)) ↔ m < n ∧ m ∉ qs := by
  rw [List.mem_filter, List.mem_range]
  simp

theorem permOf_filter_length {n : ℕ} {qs : List ℕ} (hnd : qs.Nodup)
    (hlt : ∀ q ∈ qs, q < n) :
    ((List.range n).filter (fun i => decide (i ∉ qs))).length = n - qs.length := by
  have hsplit := List.length_eq_length_filter_add (l := List.range n)
    (fun i => decide (i ∈ qs))
  rw [List.length_range] at hsplit
  have hmemlen : ((List.range n).filter (fun i => decide (i ∈ qs))).length = qs.length := by
    have hndf : ((List.range n).filter (fun i => decide (i ∈ qs))).Nodup :=
      List.Nodup.filter _ (List.nodup_range n)
    have htf : ((List.range n).filter (fun i => decide (i ∈ qs))).toFinset = qs.toFinset := by
      ext x
      rw [List.mem_toFinset, List.mem_filter, List.mem_range, List.mem_toFinset]
      constructor
      · rintro ⟨_, hx⟩
        exact of_decide_eq_true hx
      · intro hx
        exact ⟨hlt x hx, decide_eq_true hx⟩
    have h1 := List.toFinset_card_of_nodup hndf
    have h2 := List.toFinset_card_of_nodup hnd
    rw [htf, h2] at h1
    exact h1.symm
  have hcongr : (List.range n).filter (fun i => decide (i ∉ qs)) =
      (List.range n).filter (fun i => ! decide (i ∈ qs)) := by
    apply List.filter_congr
    intro x _
    simp
  rw [hcongr]
  omega

theorem permOf_valid {n : ℕ} {qs : List ℕ} (hnd : qs.Nodup)
    (hlt : ∀ q ∈ qs, q < n) : IsValidPerm n (permOf n qs) := by
  refine ⟨?_, ?_, ?_⟩
  · rw [permOf, List.length_append, permOf_filter_length hnd hlt]
    have := length_le_of_nodup_lt hnd hlt
    omega
  · apply List.Nodup.append hnd (List.Nodup.filter _ (List.nodup_range n))
    intro x hx hxf
    exact (mem_permOf_filter.mp hxf).2 hx
  · intro m hm
    rw [permOf, List.mem_append] at hm
    cases hm with
    | inl h => exact hlt m h
    | inr h => exact (mem_permOf_filter.mp h).1

theorem permOf_getD_left {n : ℕ} (qs : List ℕ) {j : ℕ} (hj : j < qs.length) :
    (permOf n qs).getD j 0 = qs.getD j 0 :=
  List.getD_append _ _ 0 j hj

theorem permOf_getD_right {n : ℕ} (qs : List ℕ) {j : ℕ} (hj : qs.length ≤ j) :
    (permOf n qs).getD j 0 =
      ((List.range n).filter (fun i => decide (i ∉ qs))).getD (j - qs.length) 0 :=
  List.getD_append_right _ _ 0 j hj

theorem permOf_indexOf_mem {n : ℕ} {qs : List ℕ} {m : ℕ} (h : m ∈ qs) :
    (permOf n qs).indexOf m = qs.indexOf m :=
  indexOf_append_left _ _ m h

theorem permOf_indexOf_not_mem {n : ℕ} {qs : List ℕ} {m : ℕ} (h : m ∉ qs) :
    (permOf n qs).indexOf m =
      qs.length + ((List.range n).filter (fun i => decide (i ∉ qs))).indexOf m :=
  indexOf_append_right _ _ m h

/-! ## The simulator embedding

Definitions in this section are translated statement-by-statement from
`src/quantum_simulator.py`.  The permute/reshape/matmul/inverse-permute
pipeline of `_apply_unitary` is expressed at the level of flat indices:
`np.transpose(T, perm)` flattened reads index `i` of the original vector at
`scatterIdx n perm i`, `reshape(2^k, -1)` maps the pair `(r, c)` to the flat
index `r * 2^(n-k) + c`, and `np.argsort` is `argsortPerm`. -/

/-- Flattened `np.transpose(state_tensor, perm)`. -/
def transposeVec (n : ℕ) (perm : List ℕ) (ψ : ℕ → ℂ) : ℕ → ℂ :=
  fun i => ψ (scatterIdx n perm i)

/-- The state update performed by `QuantumCircuit._apply_unitary` after its
validation steps: permute the target qubits to the leading axes, reshape to a
`2^k × 2^(n-k)` matrix, left-multiply by `unitary`, reshape back and apply the
inverse permutation.  Entry `x` of the result is entry
`(s / 2^(n-k), s % 2^(n-k))` of `unitary @ reshaped` where
`s = scatterIdx n (argsortPerm n perm) x`. -/
def applyUnitaryCore (n : ℕ) (U : ℕ → ℕ → ℂ) (qs : List ℕ) (ψ : ℕ → ℂ) : ℕ → ℂ :=
  fun x =>
    ∑ y ∈ Finset.range (2 ^ qs.length),
      U (scatterIdx n (argsortPerm n (permOf n qs)) x / 2 ^ (n - qs.length)) y *
        transposeVec n (permOf n qs) ψ
          (y * 2 ^ (n - qs.length) +
            scatterIdx n (argsortPerm n (permOf n qs)) x % 2 ^ (n - qs.length))

/-- The flattened marginal computed by `QuantumCircuit.probabilities` on a
non-empty qubit tuple: permute the requested qubits to the front and sum
`|amplitude|^2` over the remaining axes. -/
def marginalCode (n : ℕ) (qs : List ℕ) (ψ : ℕ → ℂ) : ℕ → ℝ :=
  fun r =>
    ∑ c ∈ Finset.range (2 ^ (n - qs.length)),
      Complex.normSq (transposeVec n (permOf n qs) ψ (r * 2 ^ (n - qs.length) + c))

/-- `format(i, f"0{k}b")`: the `k`-character bit string of `i`, MSB first. -/
def natToBits (k i : ℕ) : List ℕ :=
  (List.range k).map (fun q => bitOf k q i)

/-- `int(bitstring, 2)`. -/
def bitsToNat (bs : List ℕ) : ℕ :=
  bs.foldl (fun a b => 2 * a + b) 0

/-- The squared Frobenius norm of the `collapsed` matrix of
`_collapse_state`: every row of the permuted/reshaped state is zeroed except
row `int(bitstring, 2)`. -/
def collapseNormSq (n : ℕ) (qs : List ℕ) (bs : List ℕ) (ψ : ℕ → ℂ) : ℝ :=
  ∑ r ∈ Finset.range (2 ^ qs.length), ∑ c ∈ Finset.range (2 ^ (n - qs.length)),
    Complex.normSq (if r = bitsToNat bs then
      transposeVec n (permOf n qs) ψ (r * 2 ^ (n - qs.length) + c) else 0)

/-- `QuantumCircuit._collapse_state`: for an empty qubit tuple, replace the
state by the basis vector of `int(bitstring, 2)`; otherwise zero out every
row of the permuted/reshaped state except row `int(bitstring, 2)`, divide by
the Frobenius norm (`np.linalg.norm`) when it is positive (`if norm > 0`),
and restore the original axis order. -/
def collapseCore (n : ℕ) (qs : List ℕ) (bs : List ℕ) (ψ : ℕ → ℂ) : ℕ → ℂ :=
  if qs.isEmpty then
    fun i => if i = bitsToNat bs then 1 else 0
  else
    fun x =>
      let s := scatterIdx n (argsortPerm n (permOf n qs)) x
      let raw : ℂ :=
        if s / 2 ^ (n - qs.length) = bitsToNat bs then
          transposeVec n (permOf n qs) ψ
            (s / 2 ^ (n - qs.length) * 2 ^ (n - qs.length) + s % 2 ^ (n - qs.length))
        else 0
      let norm : ℝ := Real.sqrt (collapseNormSq n qs bs ψ)
      if norm > 0 then raw / (norm : ℂ) else raw

/-- The probability dictionary built by `QuantumCircuit.probabilities` (as an
association list in insertion order): the empty-tuple fast path squares the
raw amplitudes and keys them by `n`-bit strings; the general path keys the
flattened marginal by `k`-bit strings (`_distribution_from_probabilities`). -/
def probsList (n : ℕ) (qs : List ℕ) (ψ : ℕ → ℂ) : List (List ℕ × ℝ) :=
  if qs.isEmpty then
    (List.range (2 ^ n)).map (fun i => (natToBits n i, Complex.normSq (ψ i)))
  else
    (List.range (2 ^ qs.length)).map (fun r => (natToBits qs.length r, marginalCode n qs ψ r))

/-- Python string comparison `<` restricted to '0'/'1' strings (modelled as
bit lists): lexicographic, shorter prefix first. -/
def strLtB : List ℕ → List ℕ → Bool
  | [], [] => false
  | [], _ :: _ => true
  | _ :: _, [] => false
  | a :: as, b :: bs => if a < b then true else if b < a then false else strLtB as bs

/-- The (non-strict) order used to model Python's `sorted` on bit strings. -/
def strLe (a b : List ℕ) : Prop := a = b ∨ strLtB a b = true

instance : DecidableRel strLe :=
  fun a b => decidable_of_iff (a = b ∨ strLtB a b = true) Iff.rfl

/-- Dataclass `MeasurementResult`: a counts mapping (insertion-ordered). -/
structure MeasurementResult where
  counts : List (List ℕ × ℕ)

/-- Accumulator for `max(self.counts.items(), key=lambda item: (item[1], item[0]))`:
Python's `max` keeps the current item unless a strictly greater key appears,
keys being compared as (count, bit string) pairs. -/
def mostLikelyAux : List ℕ × ℕ → List (List ℕ × ℕ) → List ℕ
  | best, [] => best.1
  | best, item :: rest =>
    mostLikelyAux
      (if best.2 < item.2 ∨ (best.2 = item.2 ∧ strLtB best.1 item.1 = true) then item else best)
      rest

/-- `MeasurementResult.most_likely`; `none` models the `ValueError` that
Python's `max` raises on an empty mapping. -/
def MeasurementResult.most_likely (m : MeasurementResult) : Option (List ℕ) :=
  match m.counts with
  | [] => none
  | item :: rest => some (mostLikelyAux item rest)

/-- `MeasurementResult.total_shots`. -/
def MeasurementResult.total_shots (m : MeasurementResult) : ℕ :=
  (m.counts.map Prod.snd).sum

/-- Class `QuantumCircuit`: qubit count and amplitude vector. -/
structure QuantumCircuit where
  num_qubits : ℕ
  state : ℕ → ℂ

/-- A NumPy 2-D array of complex entries (the `ndim != 2` check of
`_apply_unitary` is subsumed by the type; the `shape[0] != shape[1]` check is
`rows ≠ cols`). -/
structure NpMatrix where
  rows : ℕ
  cols : ℕ
  entry : ℕ → ℕ → ℂ

/-- `QuantumCircuit.__init__`: reject a non-positive qubit count, otherwise
start in `|00...0⟩`. -/
def mkQuantumCircuit (num_qubits : ℤ) : Except String QuantumCircuit :=
  if num_qubits ≤ 0 then .error "A circuit must contain at least one qubit."
  else .ok ⟨num_qubits.toNat, fun i => if i = 0 then 1 else 0⟩

/-- `QuantumCircuit._normalise_qubits`: `None` means all qubits in index
order; an explicit sequence must be duplicate-free, and every index must
satisfy `0 <= qubit < num_qubits`. -/
def normaliseQubits (n : ℕ) (qubits : Option (List ℤ)) : Except String (List ℕ) :=
  match qubits with
  | none => .ok (List.range n)
  | some l =>
    if ¬ l.Nodup then .error "Qubits must be distinct."
    else if ∀ q ∈ l, 0 ≤ q ∧ q < (n : ℤ) then .ok (l.map Int.toNat)
    else .error "Qubit index out of range."

/-- `QuantumCircuit._apply_unitary`: square check, qubit validation,
dimension check (`1 << len(qubit_tuple)`), then the state update. -/
def QuantumCircuit.applyUnitaryImpl (c : QuantumCircuit) (unitary : NpMatrix)
    (qubits : List ℤ) : Except String QuantumCircuit :=
  if unitary.rows ≠ unitary.cols then .error "Unitary must be a square matrix."
  else
    match normaliseQubits c.num_qubits (some qubits) with
    | .error e => .error e
    | .ok qs =>
      if unitary.rows ≠ 2 ^ qs.length then
        .error "Unitary dimension does not match the number of qubits."
      else .ok ⟨c.num_qubits, applyUnitaryCore c.num_qubits unitary.entry qs c.state⟩

/-- `_H = np.array([[1, 1], [1, -1]]) / np.sqrt(2)`. -/
def Hmat : NpMatrix :=
  ⟨2, 2, fun r c =>
    if r = 1 ∧ c = 1 then (-(1 / Real.sqrt 2) : ℝ)
    else if r ≤ 1 ∧ c ≤ 1 then ((1 / Real.sqrt 2 : ℝ) : ℂ)
    else 0⟩

/-- `_X = np.array([[0, 1], [1, 0]])`. -/
def Xmat : NpMatrix :=
  ⟨2, 2, fun r c => if (r = 0 ∧ c = 1) ∨ (r = 1 ∧ c = 0) then 1 else 0⟩

/-- `_CNOT`: the 4×4 controlled-NOT permutation matrix. -/
def CNOTmat : NpMatrix :=
  ⟨4, 4, fun r c =>
    if (r = 0 ∧ c = 0) ∨ (r = 1 ∧ c = 1) ∨ (r = 2 ∧ c = 3) ∨ (r = 3 ∧ c = 2) then 1 else 0⟩

/-- `QuantumCircuit.hadamard`. -/
def QuantumCircuit.hadamard (c : QuantumCircuit) (qubit : ℤ) : Except String QuantumCircuit :=
  c.applyUnitaryImpl Hmat [qubit]

/-- `QuantumCircuit.pauli_x`. -/
def QuantumCircuit.pauli_x (c : QuantumCircuit) (qubit : ℤ) : Except String QuantumCircuit :=
  c.applyUnitaryImpl Xmat [qubit]

/-- `QuantumCircuit.cnot`: control and target must differ. -/
def QuantumCircuit.cnot (c : QuantumCircuit) (control target : ℤ) :
    Except String QuantumCircuit :=
  if control = target then .error "Control and target qubits must be different."
  else c.applyUnitaryImpl CNOTmat [control, target]

/-- `QuantumCircuit.apply_custom` (the `np.asarray` conversion is the
identity in the model). -/
def QuantumCircuit.apply_custom (c : QuantumCircuit) (unitary : NpMatrix)
    (qubits : List ℤ) : Except String QuantumCircuit :=
  c.applyUnitaryImpl unitary qubits

/-- `QuantumCircuit.probabilities`. -/
def QuantumCircuit.probabilities (c : QuantumCircuit) (qubits : Option (List ℤ)) :
    Except String (List (List ℕ × ℝ)) :=
  match normaliseQubits c.num_qubits qubits with
  | .error e => .error e
  | .ok qs => .ok (probsList c.num_qubits qs c.state)

/-- `sorted(outcome_distribution.keys())`. -/
def measureBitstrings (n : ℕ) (qs : List ℕ) (ψ : ℕ → ℂ) : List (List ℕ) :=
  List.insertionSort strLe ((probsList n qs ψ).map Prod.fst)

/-- `np.array([outcome_distribution[key] for key in bitstrings])`. -/
def measureProbs (n : ℕ) (qs : List ℕ) (ψ : ℕ → ℂ) : List ℝ :=
  (measureBitstrings n qs ψ).map (fun b => ((probsList n qs ψ).lookup b).getD 0)

/-- `atol + rtol * |1.0|` of `np.isclose` with its default tolerances. -/
def isCloseTol : ℝ := 1 / 100000000 + 1 / 100000

/-- The probability vector passed to `rng.choice`: renormalized by its sum
when `np.isclose(probabilities.sum(), 1.0)` fails. -/
def measureFinalProbs (n : ℕ) (qs : List ℕ) (ψ : ℕ → ℂ) : List ℝ :=
  if |(measureProbs n qs ψ).sum - 1| ≤ isCloseTol then measureProbs n qs ψ
  else (measureProbs n qs ψ).map (fun p => p / (measureProbs n qs ψ).sum)

/-- `rng.choice(len(bitstrings), size=shots, p=probabilities)` with the rng
modelled as an injected oracle. -/
def measureOutcomes (n : ℕ) (qs : List ℕ) (ψ : ℕ → ℂ) (shotsN : ℕ)
    (rng : ℕ → ℕ → List ℝ → List ℕ) : List ℕ :=
  rng (measureBitstrings n qs ψ).length shotsN (measureFinalProbs n qs ψ)

/-- `QuantumCircuit.measure`: validate the shot count and the qubit tuple,
sample, tally `counts[bitstrings[index]] += 1` per outcome, and collapse onto
`bitstrings[int(outcomes[-1])]`.  Returns the result together with the
mutated register. -/
def QuantumCircuit.measure (c : QuantumCircuit) (qubits : Option (List ℤ))
    (shots : ℤ) (rng : ℕ → ℕ → List ℝ → List ℕ) :
    Except String (MeasurementResult × QuantumCircuit) :=
  if shots ≤ 0 then .error "The number of measurement shots must be positive."
  else
    match normaliseQubits c.num_qubits qubits with
    | .error e => .error e
    | .ok qs =>
      let bitstrings := measureBitstrings c.num_qubits qs c.state
      let outcomes := measureOutcomes c.num_qubits qs c.state shots.toNat rng
      .ok (⟨(List.range bitstrings.length).map (fun j => (bitstrings.getD j [], outcomes.count j))⟩,
        ⟨c.num_qubits,
          collapseCore c.num_qubits qs (bitstrings.getD (outcomes.getLastD 0) []) c.state⟩)

/-! ## Spec-side definitions

These follow the specification's words, to be compared with the embedding of
the code: §4.1 "produce a new amplitude vector equal to (U ⊗ I) applied to
the subspace spanned by those qubits, leaving all other qubits' amplitudes
structurally untouched", with the bit-string convention of §6 ("ordered
most-significant-qubit-first according to the order qubits were requested"). -/

/-- The row of `U` selected by index `x`: the bits of `x` at the requested
qubits, MSB-first in the order the qubits were requested. -/
def rowIdx (n : ℕ) (qs : List ℕ) (x : ℕ) : ℕ :=
  ∑ j ∈ Finset.range qs.length, bitOf n (qs.getD j 0) x * 2 ^ (qs.length - 1 - j)

/-- `x` with its bits at the requested qubits replaced by the bits of `y`
(MSB-first in requested order) and all other bits untouched. -/
def substIdx (n : ℕ) (qs : List ℕ) (x y : ℕ) : ℕ :=
  unbits n (fun m => if m ∈ qs then bitOf qs.length (qs.indexOf m) y else bitOf n m x)

/-- The action of `U ⊗ I` on the amplitude vector under the MSB-first
indexing convention: entry `x` mixes only amplitudes agreeing with `x`
outside the requested qubits, weighted by row `rowIdx x` of `U`. -/
def applyUnitarySpec (n : ℕ) (U : ℕ → ℕ → ℂ) (qs : List ℕ) (ψ : ℕ → ℂ) : ℕ → ℂ :=
  fun x => ∑ y ∈ Finset.range (2 ^ qs.length), U (rowIdx n qs x) y * ψ (substIdx n qs x y)

/-! ## Structural lemmas connecting the code pipeline to the spec formula -/

theorem rowIdx_lt (n : ℕ) (qs : List ℕ) (x : ℕ) : rowIdx n qs x < 2 ^ qs.length :=
  unbits_lt qs.length _ (fun j _ => bitOf_le_one _ _ _)

theorem substIdx_lt (n : ℕ) (qs : List ℕ) (x y : ℕ) : substIdx n qs x y < 2 ^ n := by
  apply unbits_lt
  intro m _
  by_cases hm : m ∈ qs
  · rw [if_pos hm]; exact bitOf_le_one _ _ _
  · rw [if_neg hm]; exact bitOf_le_one _ _ _

theorem bitOf_rowIdx (n : ℕ) (qs : List ℕ) (x : ℕ) {j : ℕ} (hj : j < qs.length) :
    bitOf qs.length j (rowIdx n qs x) = bitOf n (qs.getD j 0) x :=
  bitOf_unbits qs.length _ (fun q _ => bitOf_le_one _ _ _) j hj

theorem bitOf_substIdx (n : ℕ) (qs : List ℕ) (x y : ℕ) {m : ℕ} (hm : m < n) :
    bitOf n m (substIdx n qs x y) =
      if m ∈ qs then bitOf qs.length (qs.indexOf m) y else bitOf n m x := by
  have hb : ∀ q < n,
      (if q ∈ qs then bitOf qs.length (qs.indexOf q) y else bitOf n q x) ≤ 1 := by
    intro q _
    by_cases hq : q ∈ qs
    · rw [if_pos hq]; exact bitOf_le_one _ _ _
    · rw [if_neg hq]; exact bitOf_le_one _ _ _
  exact bitOf_unbits n _ hb m hm

/-- Context for a validated qubit tuple: the hypotheses `_normalise_qubits`
guarantees on success. -/
structure ValidQubits (n : ℕ) (qs : List ℕ) : Prop where
  nodup : qs.Nodup
  lt : ∀ q ∈ qs, q < n

theorem ValidQubits.len_le {n : ℕ} {qs : List ℕ} (h : ValidQubits n qs) :
    qs.length ≤ n :=
  length_le_of_nodup_lt h.nodup h.lt

theorem ValidQubits.perm_valid {n : ℕ} {qs : List ℕ} (h : ValidQubits n qs) :
    IsValidPerm n (permOf n qs) :=
  permOf_valid h.nodup h.lt

theorem ValidQubits.getD_mem {n : ℕ} {qs : List ℕ} (_ : ValidQubits n qs)
    {j : ℕ} (hj : j < qs.length) : qs.getD j 0 ∈ qs := by
  rw [List.getD_eq_getElem?_getD, List.getElem?_eq_getElem hj]
  exact List.getElem_mem _

/-- Bit `j < k` of `s / 2^(n-k)` is bit `j` of `s`, for `s < 2^n`. -/
theorem bitOf_div {n k : ℕ} (hk : k ≤ n) {s : ℕ} (hs : s < 2 ^ n) {j : ℕ} (hj : j < k) :
    bitOf k j (s / 2 ^ (n - k)) = bitOf n j s := by
  have hsplit : s = s / 2 ^ (n - k) * 2 ^ (n - k) + s % 2 ^ (n - k) :=
    (Nat.div_add_mod' s (2 ^ (n - k))).symm
  have hr : s / 2 ^ (n - k) < 2 ^ k := by
    apply Nat.div_lt_of_lt_mul
    rw [← pow_add]
    have hh : n - k + k = n := by omega
    rw [hh]
    exact hs
  have hc : s % 2 ^ (n - k) < 2 ^ (n - k) :=
    Nat.mod_lt _ (Nat.pos_pow_of_pos _ (by norm_num))
  have h := bitOf_mul_add k (n - k) (s / 2 ^ (n - k)) (s % 2 ^ (n - k)) hr hc j (by omega)
  rw [if_pos hj] at h
  have hkn : k + (n - k) = n := by omega
  rw [hkn] at h
  conv_rhs => rw [hsplit]
  exact h.symm

/-- Bit `k + j` of `s` is bit `j` of `s % 2^(n-k)`, for `s < 2^n`. -/
theorem bitOf_mod {n k : ℕ} (hk : k ≤ n) {s : ℕ} (hs : s < 2 ^ n) {j : ℕ}
    (hj : j < n - k) : bitOf (n - k) j (s % 2 ^ (n - k)) = bitOf n (k + j) s := by
  have hsplit : s = s / 2 ^ (n - k) * 2 ^ (n - k) + s % 2 ^ (n - k) :=
    (Nat.div_add_mod' s (2 ^ (n - k))).symm
  have hr : s / 2 ^ (n - k) < 2 ^ k := by
    apply Nat.div_lt_of_lt_mul
    rw [← pow_add]
    have hh : n - k + k = n := by omega
    rw [hh]
    exact hs
  have hc : s % 2 ^ (n - k) < 2 ^ (n - k) :=
    Nat.mod_lt _ (Nat.pos_pow_of_pos _ (by norm_num))
  have h := bitOf_mul_add k (n - k) (s / 2 ^ (n - k)) (s % 2 ^ (n - k)) hr hc (k + j) (by omega)
  rw [if_neg (by omega)] at h
  have hkj : k + j - k = j := by omega
  have hkn : k + (n - k) = n := by omega
  rw [hkj, hkn] at h
  conv_rhs => rw [hsplit]
  exact h.symm

/-- The row index the code computes (`s / 2^(n-k)` for
`s = scatterIdx n (argsortPerm n (permOf n qs)) x`) is the spec's `rowIdx`. -/
theorem scatter_argsort_div_eq_rowIdx {n : ℕ} {qs : List ℕ} (h : ValidQubits n qs)
    {x : ℕ} (hx : x < 2 ^ n) :
    scatterIdx n (argsortPerm n (permOf n qs)) x / 2 ^ (n - qs.length) = rowIdx n qs x := by
  have hp := h.perm_valid
  have hk := h.len_le
  have hs : scatterIdx n (argsortPerm n (permOf n qs)) x < 2 ^ n :=
    scatterIdx_lt (argsortPerm_valid hp) x
  have hr : scatterIdx n (argsortPerm n (permOf n qs)) x / 2 ^ (n - qs.length) <
      2 ^ qs.length := by
    apply Nat.div_lt_of_lt_mul
    rw [← pow_add]
    have hh : n - qs.length + qs.length = n := by omega
    rw [hh]
    exact hs
  apply eq_of_bitOf_eq qs.length _ _ hr (rowIdx_lt n qs x)
  intro j hj
  rw [bitOf_rowIdx n qs x hj]
  rw [bitOf_div hk hs hj]
  rw [bitOf_scatterIdx (argsortPerm_valid hp) x (by omega)]
  rw [argsortPerm_indexOf hp (by omega)]
  rw [permOf_getD_left qs hj]

/-- Reading the transposed state at row `y` and the column of `x` is reading
the original state at `substIdx n qs x y`: the code's permute/reshape
bookkeeping implements exactly the spec's bit substitution. -/
theorem scatter_glue_eq_substIdx {n : ℕ} {qs : List ℕ} (h : ValidQubits n qs)
    {x : ℕ} (hx : x < 2 ^ n) {y : ℕ} (hy : y < 2 ^ qs.length) :
    scatterIdx n (permOf n qs)
      (y * 2 ^ (n - qs.length) +
        scatterIdx n (argsortPerm n (permOf n qs)) x % 2 ^ (n - qs.length)) =
      substIdx n qs x y := by
  have hp := h.perm_valid
  have hk := h.len_le
  have hs : scatterIdx n (argsortPerm n (permOf n qs)) x < 2 ^ n :=
    scatterIdx_lt (argsortPerm_valid hp) x
  have hc : scatterIdx n (argsortPerm n (permOf n qs)) x % 2 ^ (n - qs.length) <
      2 ^ (n - qs.length) := Nat.mod_lt _ (Nat.pos_pow_of_pos _ (by norm_num))
  have hkn : qs.length + (n - qs.length) = n := by omega
  have ht : y * 2 ^ (n - qs.length) +
      scatterIdx n (argsortPerm n (permOf n qs)) x % 2 ^ (n - qs.length) < 2 ^ n := by
    have := mul_add_lt_pow qs.length (n - qs.length) y _ hy hc
    rwa [hkn] at this
  apply eq_of_bitOf_eq n _ _ (scatterIdx_lt hp _) (substIdx_lt n qs x y)
  intro m hm
  rw [bitOf_scatterIdx hp _ hm, bitOf_substIdx n qs x y hm]
  by_cases hmem : m ∈ qs
  · rw [if_pos hmem, permOf_indexOf_mem hmem]
    have hidx : qs.indexOf m < qs.length := indexOf_lt_len qs m hmem
    have hbit := bitOf_mul_add qs.length (n - qs.length) y
      (scatterIdx n (argsortPerm n (permOf n qs)) x % 2 ^ (n - qs.length)) hy hc
      (qs.indexOf m) (by omega)
    rw [if_pos hidx, hkn] at hbit
    exact hbit
  · rw [if_neg hmem, permOf_indexOf_not_mem hmem]
    have hmf : m ∈ (List.range n).filter (fun i => decide (i ∉ qs)) :=
      mem_permOf_filter.mpr ⟨hm, hmem⟩
    have hfl : ((List.range n).filter (fun i => decide (i ∉ qs))).length = n - qs.length :=
      permOf_filter_length h.nodup h.lt
    have hfi : ((List.range n).filter (fun i => decide (i ∉ qs))).indexOf m < n - qs.length := by
      have := indexOf_lt_len _ m hmf
      omega
    have hbit := bitOf_mul_add qs.length (n - qs.length) y
      (scatterIdx n (argsortPerm n (permOf n qs)) x % 2 ^ (n - qs.length)) hy hc
      (qs.length + ((List.range n).filter (fun i => decide (i ∉ qs))).indexOf m) (by omega)
    rw [if_neg (by omega), hkn] at hbit
    have hred : qs.length + ((List.range n).filter (fun i => decide (i ∉ qs))).indexOf m -
        qs.length = ((List.range n).filter (fun i => decide (i ∉ qs))).indexOf m := by omega
    rw [hred] at hbit
    rw [hbit]
    rw [bitOf_mod hk hs hfi]
    have hlt2 : qs.length + ((List.range n).filter (fun i => decide (i ∉ qs))).indexOf m < n := by
      omega
    rw [bitOf_scatterIdx (argsortPerm_valid hp) x hlt2, argsortPerm_indexOf hp hlt2,
      permOf_getD_right qs (by omega)]
    have hsub : qs.length + ((List.range n).filter (fun i => decide (i ∉ qs))).indexOf m -
        qs.length = ((List.range n).filter (fun i => decide (i ∉ qs))).indexOf m := by omega
    rw [hsub, getD_indexOf_self _ m hmf]

/-- The spec's row index of a glued-and-transposed index is its row part. -/
theorem rowIdx_scatter_glue {n : ℕ} {qs : List ℕ} (h : ValidQubits n qs)
    {r : ℕ} (hr : r < 2 ^ qs.length) {c : ℕ} (hc : c < 2 ^ (n - qs.length)) :
    rowIdx n qs (scatterIdx n (permOf n qs) (r * 2 ^ (n - qs.length) + c)) = r := by
  have hp := h.perm_valid
  have hk := h.len_le
  have hkn : qs.length + (n - qs.length) = n := by omega
  have ht : r * 2 ^ (n - qs.length) + c < 2 ^ n := by
    have := mul_add_lt_pow qs.length (n - qs.length) r c hr hc
    rwa [hkn] at this
  apply eq_of_bitOf_eq qs.length _ _ (rowIdx_lt n qs _) hr
  intro j hj
  rw [bitOf_rowIdx n qs _ hj]
  have hmem : qs.getD j 0 ∈ qs := h.getD_mem hj
  have hmlt : qs.getD j 0 < n := h.lt _ hmem
  rw [bitOf_scatterIdx hp _ hmlt, permOf_indexOf_mem hmem,
    indexOf_getD_self qs h.nodup j (by omega) 0]
  have hbit := bitOf_mul_add qs.length (n - qs.length) r c hr hc j (by omega)
  rw [if_pos hj, hkn] at hbit
  exact hbit

/-- Central refinement lemma: after validation, `_apply_unitary`'s
permute/reshape/matmul/restore pipeline computes exactly the `U ⊗ I` action
described by the spec. -/
theorem applyUnitaryCore_eq_spec {n : ℕ} {qs : List ℕ} (h : ValidQubits n qs)
    (U : ℕ → ℕ → ℂ) (ψ : ℕ → ℂ) {x : ℕ} (hx : x < 2 ^ n) :
    applyUnitaryCore n U qs ψ x = applyUnitarySpec n U qs ψ x := by
  unfold applyUnitaryCore applyUnitarySpec transposeVec
  apply Finset.sum_congr rfl
  intro y hy
  rw [scatter_argsort_div_eq_rowIdx h hx,
    scatter_glue_eq_substIdx h hx (Finset.mem_range.mp hy)]

/-! ## Validation lemmas -/

theorem normaliseQubits_none (n : ℕ) : normaliseQubits n none = .ok (List.range n) := rfl

theorem validQubits_range (n : ℕ) : ValidQubits n (List.range n) :=
  ⟨List.nodup_range n, fun q hq => List.mem_range.mp hq⟩

theorem normaliseQubits_ok_some {n : ℕ} {l : List ℤ} {qs : List ℕ}
    (h : normaliseQubits n (some l) = .ok qs) :
    qs = l.map Int.toNat ∧ l.Nodup ∧ (∀ q ∈ l, 0 ≤ q ∧ q < (n : ℤ)) := by
  simp only [normaliseQubits] at h
  split_ifs at h with h1 h2
  exact ⟨((Except.ok.injEq _ _).mp h).symm, h1, h2⟩

theorem validQubits_of_int {n : ℕ} {l : List ℤ} (hnd : l.Nodup)
    (hlt : ∀ q ∈ l, 0 ≤ q ∧ q < (n : ℤ)) : ValidQubits n (l.map Int.toNat) := by
  constructor
  · apply List.Nodup.map_on _ hnd
    intro x hx y hy hxy
    have hx0 := (hlt x hx).1
    have hy0 := (hlt y hy).1
    omega
  · intro q hq
    rw [List.mem_map] at hq
    obtain ⟨z, hz, rfl⟩ := hq
    have h1 := hlt z hz
    omega

theorem normaliseQubits_ok_valid {n : ℕ} {o : Option (List ℤ)} {qs : List ℕ}
    (h : normaliseQubits n o = .ok qs) : ValidQubits n qs := by
  match o with
  | none =>
    rw [normaliseQubits_none] at h
    cases h
    exact validQubits_range n
  | some l =>
    obtain ⟨rfl, hnd, hlt⟩ := normaliseQubits_ok_some h
    exact validQubits_of_int hnd hlt

/-- Successful `_apply_unitary`: both validation checks passed and the new
register is the pipeline result. -/
theorem applyUnitaryImpl_ok {c : QuantumCircuit} {U : NpMatrix} {qubits : List ℤ}
    {qs : List ℕ} {c' : QuantumCircuit}
    (hq : normaliseQubits c.num_qubits (some qubits) = .ok qs)
    (hok : c.applyUnitaryImpl U qubits = .ok c') :
    U.rows = U.cols ∧ U.rows = 2 ^ qs.length ∧
      c' = ⟨c.num_qubits, applyUnitaryCore c.num_qubits U.entry qs c.state⟩ := by
  unfold QuantumCircuit.applyUnitaryImpl at hok
  rw [hq] at hok
  dsimp only at hok
  by_cases h1 : U.rows = U.cols
  · rw [if_neg (not_not_intro h1)] at hok
    by_cases h2 : U.rows = 2 ^ qs.length
    · rw [if_neg (not_not_intro h2)] at hok
      rw [Except.ok.injEq] at hok
      exact ⟨h1, h2, hok.symm⟩
    · rw [if_pos h2] at hok
      cases hok
  · rw [if_pos h1] at hok
    cases hok

/-! ## Claim C1 -/

/-- C1: for every register of `n` qubits, every validated tuple of distinct
in-range qubit indices and every `2^k × 2^k` matrix `U`, a successful
`apply_custom` (and hence every named gate, which routes through the same
`_apply_unitary`) replaces the amplitude vector by the `U ⊗ I` action on the
selected `k`-qubit subspace under the MSB-first indexing convention, the
amplitudes of non-target qubits entering only through the untouched bits of
`substIdx` (reshuffled back in place, never altered). -/
theorem C1_apply_unitary_is_tensor_action (c : QuantumCircuit) (U : NpMatrix)
    (qubits : List ℤ) (qs : List ℕ)
    (hq : normaliseQubits c.num_qubits (some qubits) = .ok qs)
    (c' : QuantumCircuit) (hok : c.apply_custom U qubits = .ok c') :
    c'.num_qubits = c.num_qubits ∧
      ∀ x, x < 2 ^ c.num_qubits →
        c'.state x = applyUnitarySpec c.num_qubits U.entry qs c.state x := by
  obtain ⟨-, -, hc'⟩ := applyUnitaryImpl_ok hq hok
  subst hc'
  refine ⟨rfl, ?_⟩
  intro x hx
  exact applyUnitaryCore_eq_spec (normaliseQubits_ok_valid hq) U.entry c.state hx

/-- A concrete 1-qubit register in state `|0⟩`, used by witnesses. -/
def wCircuit1 : QuantumCircuit := ⟨1, fun i => if i = 0 then 1 else 0⟩

/-- Its image under `apply_custom _X [0]`. -/
def wCircuit1X : QuantumCircuit := ⟨1, applyUnitaryCore 1 Xmat.entry [0] wCircuit1.state⟩

/-- Witness for C1 at the concrete input `n = 1`, `U = _X`, `qubits = [0]`. -/
theorem C1_witness_pauli_x :
    wCircuit1X.state 1 = applyUnitarySpec 1 Xmat.entry [0] wCircuit1.state 1 :=
  (C1_apply_unitary_is_tensor_action wCircuit1 Xmat [0] [0] rfl wCircuit1X rfl).2 1 (by decide)

/-! ## Claim C2 -/

/-- The flattened marginal the code computes at row `r` is the sum of squared
magnitudes over all basis states whose bits at the requested qubits (MSB
first, in request order) spell `r`. -/
theorem marginalCode_eq_fiber {n : ℕ} {qs : List ℕ} (h : ValidQubits n qs)
    (ψ : ℕ → ℂ) {r : ℕ} (hr : r < 2 ^ qs.length) :
    marginalCode n qs ψ r =
      ∑ x ∈ (Finset.range (2 ^ n)).filter (fun x => rowIdx n qs x = r),
        Complex.normSq (ψ x) := by
  have hp := h.perm_valid
  have hk := h.len_le
  have hkn : qs.length + (n - qs.length) = n := by omega
  unfold marginalCode transposeVec
  refine Finset.sum_nbij'
    (fun c' => scatterIdx n (permOf n qs) (r * 2 ^ (n - qs.length) + c'))
    (fun x => scatterIdx n (argsortPerm n (permOf n qs)) x % 2 ^ (n - qs.length))
    ?_ ?_ ?_ ?_ ?_
  · intro c' hc'
    have hc'' := Finset.mem_range.mp hc'
    rw [Finset.mem_filter]
    constructor
    · exact Finset.mem_range.mpr (scatterIdx_lt hp _)
    · exact rowIdx_scatter_glue h hr hc''
  · intro x _
    exact Finset.mem_range.mpr (Nat.mod_lt _ (Nat.pos_pow_of_pos _ (by norm_num)))
  · intro c' hc'
    have hc'' := Finset.mem_range.mp hc'
    have ht : r * 2 ^ (n - qs.length) + c' < 2 ^ n := by
      have := mul_add_lt_pow qs.length (n - qs.length) r c' hr hc''
      rwa [hkn] at this
    show scatterIdx n (argsortPerm n (permOf n qs))
        (scatterIdx n (permOf n qs) (r * 2 ^ (n - qs.length) + c')) % 2 ^ (n - qs.length) = c'
    rw [scatterIdx_argsort_scatterIdx hp ht, add_comm, Nat.add_mul_mod_self_right,
      Nat.mod_eq_of_lt hc'']
  · intro x hx
    rw [Finset.mem_filter] at hx
    obtain ⟨hx1, hx2⟩ := hx
    have hx' := Finset.mem_range.mp hx1
    have hdm : r * 2 ^ (n - qs.length) +
        scatterIdx n (argsortPerm n (permOf n qs)) x % 2 ^ (n - qs.length) =
        scatterIdx n (argsortPerm n (permOf n qs)) x := by
      rw [← hx2, ← scatter_argsort_div_eq_rowIdx h hx']
      exact Nat.div_add_mod' _ _
    show scatterIdx n (permOf n qs) (r * 2 ^ (n - qs.length) +
      scatterIdx n (argsortPerm n (permOf n qs)) x % 2 ^ (n - qs.length)) = x
    rw [hdm, scatterIdx_scatterIdx_argsort hp hx']
  · intro c' _
    rfl

/-- C2: the distribution returned by `probabilities` is keyed by exactly the
`2^k` bit strings of length `k`, MSB-first in the order the qubits were
requested (`natToBits` of each row index in ascending row order), and its
value at each key is the marginal probability: the sum of squared magnitudes
of all amplitudes whose basis state agrees with the key on the requested
qubits.  With `qubits = none` the tuple is `0..n-1`, giving the full-register
distribution in ascending index order. -/
theorem C2_probabilities_is_marginal (c : QuantumCircuit) (qubits : Option (List ℤ))
    (qs : List ℕ) (hq : normaliseQubits c.num_qubits qubits = .ok qs) (hne : qs ≠ []) :
    c.probabilities qubits = .ok ((List.range (2 ^ qs.length)).map (fun r =>
      (natToBits qs.length r,
        ∑ x ∈ (Finset.range (2 ^ c.num_qubits)).filter
            (fun x => rowIdx c.num_qubits qs x = r),
          Complex.normSq (c.state x)))) := by
  unfold QuantumCircuit.probabilities
  rw [hq]
  dsimp only
  rw [Except.ok.injEq]
  unfold probsList
  rw [if_neg (by simpa [List.isEmpty_iff] using hne)]
  apply List.map_congr_left
  intro r hr
  have hr' := List.mem_range.mp hr
  rw [marginalCode_eq_fiber (normaliseQubits_ok_valid hq) c.state hr']

/-- Witness for C2 at the concrete input: 1-qubit register, `qubits` omitted. -/
theorem C2_witness :
    wCircuit1.probabilities none = .ok ((List.range (2 ^ (1 : ℕ))).map (fun r =>
      (natToBits 1 r,
        ∑ x ∈ (Finset.range (2 ^ wCircuit1.num_qubits)).filter
            (fun x => rowIdx wCircuit1.num_qubits [0] x = r),
          Complex.normSq (wCircuit1.state x)))) :=
  C2_probabilities_is_marginal wCircuit1 none [0] rfl (by decide)

/-! ## Claim C6 -/

theorem normaliseQubits_invalid {n : ℕ} {l : List ℤ}
    (h : ¬ l.Nodup ∨ ∃ q ∈ l, q < 0 ∨ (n : ℤ) ≤ q) :
    (normaliseQubits n (some l)).isOk = false := by
  unfold normaliseQubits
  dsimp only
  by_cases h1 : l.Nodup
  · rw [if_neg (not_not_intro h1)]
    have h2 : ¬ ∀ q ∈ l, 0 ≤ q ∧ q < (n : ℤ) := by
      cases h with
      | inl hbad => exact absurd h1 hbad
      | inr hbad =>
        obtain ⟨q, hq, hbad⟩ := hbad
        intro hall
        have := hall q hq
        omega
    rw [if_neg h2]
    rfl
  · rw [if_pos h1]
    rfl

theorem exceptOk_of_isOk {ε α : Type} {x : Except ε α} (h : x.isOk = true) :
    ∃ a, x = .ok a := by
  cases x with
  | error e => cases h
  | ok a => exact ⟨a, rfl⟩

theorem applyUnitaryImpl_isOk_false {c : QuantumCircuit} {U : NpMatrix} {l : List ℤ}
    (h : (normaliseQubits c.num_qubits (some l)).isOk = false) :
    (c.applyUnitaryImpl U l).isOk = false := by
  unfold QuantumCircuit.applyUnitaryImpl
  by_cases h1 : U.rows ≠ U.cols
  · rw [if_pos h1]
    rfl
  · rw [if_neg h1]
    cases hnq : normaliseQubits c.num_qubits (some l) with
    | error e => rfl
    | ok qs =>
      rw [hnq] at h
      cases h

theorem measure_isOk_false {c : QuantumCircuit} {l : List ℤ} {shots : ℤ}
    {rng : ℕ → ℕ → List ℝ → List ℕ}
    (h : (normaliseQubits c.num_qubits (some l)).isOk = false) :
    (c.measure (some l) shots rng).isOk = false := by
  unfold QuantumCircuit.measure
  by_cases h1 : shots ≤ 0
  · rw [if_pos h1]
    rfl
  · rw [if_neg h1]
    cases hnq : normaliseQubits c.num_qubits (some l) with
    | error e => rfl
    | ok qs =>
      rw [hnq] at h
      cases h

/-- C6: every invalid-argument case — non-positive qubit count at
construction, duplicate or out-of-range (including negative) qubit index in a
gate / probability / measurement call, CNOT with `control == target`, a
non-square unitary, a unitary whose dimension is not `2^k`, and a
non-positive shot count — makes the operation return an error.  In this
embedding a failing operation produces no new register (`Except.error`),
mirroring the Python code, where every `raise` occurs before the single
assignment to `self._state`, so the amplitude vector is unchanged on
failure. -/
theorem C6_invalid_arguments_error_before_mutation :
    (∀ z : ℤ, z ≤ 0 → (mkQuantumCircuit z).isOk = false) ∧
    (∀ (c : QuantumCircuit) (U : NpMatrix) (l : List ℤ),
      (¬ l.Nodup ∨ ∃ q ∈ l, q < 0 ∨ (c.num_qubits : ℤ) ≤ q) →
      (c.apply_custom U l).isOk = false) ∧
    (∀ (c : QuantumCircuit) (l : List ℤ),
      (¬ l.Nodup ∨ ∃ q ∈ l, q < 0 ∨ (c.num_qubits : ℤ) ≤ q) →
      (c.probabilities (some l)).isOk = false) ∧
    (∀ (c : QuantumCircuit) (l : List ℤ) (shots : ℤ) (rng : ℕ → ℕ → List ℝ → List ℕ),
      (¬ l.Nodup ∨ ∃ q ∈ l, q < 0 ∨ (c.num_qubits : ℤ) ≤ q) →
      (c.measure (some l) shots rng).isOk = false) ∧
    (∀ (c : QuantumCircuit) (q : ℤ), (c.cnot q q).isOk = false) ∧
    (∀ (c : QuantumCircuit) (U : NpMatrix) (l : List ℤ), U.rows ≠ U.cols →
      (c.apply_custom U l).isOk = false) ∧
    (∀ (c : QuantumCircuit) (U : NpMatrix) (l : List ℤ) (qs : List ℕ),
      normaliseQubits c.num_qubits (some l) = .ok qs → U.rows ≠ 2 ^ qs.length →
      (c.apply_custom U l).isOk = false) ∧
    (∀ (c : QuantumCircuit) (qubits : Option (List ℤ)) (shots : ℤ)
      (rng : ℕ → ℕ → List ℝ → List ℕ),
      shots ≤ 0 → (c.measure qubits shots rng).isOk = false) := by
  refine ⟨?_, ?_, ?_, ?_, ?_, ?_, ?_, ?_⟩
  · intro z hz
    unfold mkQuantumCircuit
    rw [if_pos hz]
    rfl
  · intro c U l h
    exact applyUnitaryImpl_isOk_false (normaliseQubits_invalid h)
  · intro c l h
    have hbad := normaliseQubits_invalid (n := c.num_qubits) h
    unfold QuantumCircuit.probabilities
    cases hnq : normaliseQubits c.num_qubits (some l) with
    | error e => rfl
    | ok qs =>
      rw [hnq] at hbad
      cases hbad
  · intro c l shots rng h
    exact measure_isOk_false (normaliseQubits_invalid h)
  · intro c q
    unfold QuantumCircuit.cnot
    rw [if_pos rfl]
    rfl
  · intro c U l h
    unfold QuantumCircuit.apply_custom QuantumCircuit.applyUnitaryImpl
    rw [if_pos h]
    rfl
  · intro c U l qs hq hdim
    unfold QuantumCircuit.apply_custom QuantumCircuit.applyUnitaryImpl
    by_cases h1 : U.rows ≠ U.cols
    · rw [if_pos h1]
      rfl
    · rw [if_neg h1, hq]
      dsimp only
      rw [if_pos hdim]
      rfl
  · intro c qubits shots rng h
    unfold QuantumCircuit.measure
    rw [if_pos h]
    rfl

/-- Witness for C6: each invalid case instantiated at a concrete input. -/
theorem C6_witness :
    (mkQuantumCircuit (-1)).isOk = false ∧
    (wCircuit1.apply_custom Xmat [0, 0]).isOk = false ∧
    (wCircuit1.probabilities (some [5])).isOk = false ∧
    (wCircuit1.measure (some [0, 0]) 1 (fun _ s _ => List.replicate s 0)).isOk = false ∧
    (wCircuit1.cnot 0 0).isOk = false ∧
    (wCircuit1.apply_custom (NpMatrix.mk 2 3 (fun _ _ => 0)) [0]).isOk = false ∧
    (wCircuit1.apply_custom (NpMatrix.mk 4 4 (fun _ _ => 0)) [0]).isOk = false ∧
    (wCircuit1.measure none 0 (fun _ s _ => List.replicate s 0)).isOk = false := by
  refine ⟨?_, ?_, ?_, ?_, ?_, ?_, ?_, ?_⟩
  · exact C6_invalid_arguments_error_before_mutation.1 (-1) (by decide)
  · exact C6_invalid_arguments_error_before_mutation.2.1 wCircuit1 Xmat [0, 0]
      (Or.inl (by decide))
  · exact C6_invalid_arguments_error_before_mutation.2.2.1 wCircuit1 [5]
      (Or.inr ⟨5, by decide, by decide⟩)
  · exact C6_invalid_arguments_error_before_mutation.2.2.2.1 wCircuit1 [0, 0] 1 _
      (Or.inl (by decide))
  · exact C6_invalid_arguments_error_before_mutation.2.2.2.2.1 wCircuit1 0
  · exact C6_invalid_arguments_error_before_mutation.2.2.2.2.2.1 wCircuit1 _ [0] (by decide)
  · exact C6_invalid_arguments_error_before_mutation.2.2.2.2.2.2.1 wCircuit1 _ [0] [0]
      rfl (by decide)
  · exact C6_invalid_arguments_error_before_mutation.2.2.2.2.2.2.2 wCircuit1 none 0 _
      (by decide)

/-! ## Claim C8

`MeasurementResult.most_likely` computes
`max(self.counts.items(), key=lambda item: (item[1], item[0]))`, which on a
count tie returns the lexicographically **largest** bit string, while its own
docstring (and the spec) promise the smallest. -/

/-- C8: evaluating the code's `most_likely` at the failing input
`{"0": 1, "1": 1}`: the counts tie and the code returns `"1"`, the
lexicographically largest of the tied strings, not the smallest `"0"`
promised by the claim and the method's docstring. -/
theorem C8_most_likely_returns_lex_largest_on_tie :
    (MeasurementResult.mk [([0], 1), ([1], 1)]).most_likely = some [1] ∧
      strLtB [0] [1] = true := by
  constructor
  · rfl
  · rfl

/-! ## Claim C7

`_collapse_state` guards the renormalization with `if norm > 0:` and raises
nothing: on a zero-probability outcome it silently leaves the all-zero
vector, contradicting the claim that it "fails loudly". -/


/-- C7 counterexample: collapsing the 1-qubit register `|0⟩` on the
zero-probability outcome `"1"` returns normally (the embedding of
`_collapse_state` is a total function — the Python body contains no `raise`)
and produces the all-zero state vector: it fails silently, not loudly. -/
theorem C7_counterexample_silent_zero_state :
    collapseCore 1 [0] [1] wCircuit1.state 0 = 0 ∧
      collapseCore 1 [0] [1] wCircuit1.state 1 = 0 := by
  have hall : ∀ x, collapseCore 1 [0] [1] wCircuit1.state x = 0 := by
    intro x
    unfold collapseCore
    rw [if_neg (by decide)]
    dsimp only
    have hraw : (if scatterIdx 1 (argsortPerm 1 (permOf 1 [0])) x / 2 ^ (1 - List.length [0]) =
        bitsToNat [1] then
        transposeVec 1 (permOf 1 [0]) wCircuit1.state
          (scatterIdx 1 (argsortPerm 1 (permOf 1 [0])) x / 2 ^ (1 - List.length [0]) *
              2 ^ (1 - List.length [0]) +
            scatterIdx 1 (argsortPerm 1 (permOf 1 [0])) x % 2 ^ (1 - List.length [0]))
      else 0) = 0 := by
      by_cases hcase : scatterIdx 1 (argsortPerm 1 (permOf 1 [0])) x / 2 ^ (1 - List.length [0]) =
          bitsToNat [1]
      · rw [if_pos hcase, hcase]
        have hm : scatterIdx 1 (argsortPerm 1 (permOf 1 [0])) x % 2 ^ (1 - List.length [0]) = 0 := by
          simp [Nat.mod_one]
        rw [hm]
        unfold transposeVec
        rw [show scatterIdx 1 (permOf 1 [0]) (bitsToNat [1] * 2 ^ (1 - List.length [0]) + 0) = 1
          from by decide]
        simp [wCircuit1]
      · rw [if_neg hcase]
    rw [hraw]
    split_ifs
    · exact zero_div _
    · rfl
  exact ⟨hall 0, hall 1⟩

/-- C7 (amended): if `_collapse_state` is triggered on an outcome of exactly
zero marginal probability (non-empty measured tuple), it raises no error and
silently leaves the register as the all-zero vector. -/
theorem C7_zero_probability_collapse_is_silent (n : ℕ) (qs bs : List ℕ) (ψ : ℕ → ℂ)
    (hne : qs ≠ []) (hzero : marginalCode n qs ψ (bitsToNat bs) = 0) :
    ∀ x, collapseCore n qs bs ψ x = 0 := by
  intro x
  have hfiber : ∀ c' < 2 ^ (n - qs.length),
      transposeVec n (permOf n qs) ψ (bitsToNat bs * 2 ^ (n - qs.length) + c') = 0 := by
    intro c' hc'
    unfold marginalCode at hzero
    have hnn : ∀ i ∈ Finset.range (2 ^ (n - qs.length)),
        0 ≤ Complex.normSq (transposeVec n (permOf n qs) ψ
          (bitsToNat bs * 2 ^ (n - qs.length) + i)) := fun i _ => Complex.normSq_nonneg _
    have h0 := (Finset.sum_eq_zero_iff_of_nonneg hnn).mp hzero c' (Finset.mem_range.mpr hc')
    exact Complex.normSq_eq_zero.mp h0
  unfold collapseCore
  rw [if_neg (by simpa [List.isEmpty_iff] using hne)]
  dsimp only
  have hraw : (if scatterIdx n (argsortPerm n (permOf n qs)) x / 2 ^ (n - qs.length) =
      bitsToNat bs then
      transposeVec n (permOf n qs) ψ
        (scatterIdx n (argsortPerm n (permOf n qs)) x / 2 ^ (n - qs.length) *
            2 ^ (n - qs.length) +
          scatterIdx n (argsortPerm n (permOf n qs)) x % 2 ^ (n - qs.length))
    else 0) = 0 := by
    by_cases hcase : scatterIdx n (argsortPerm n (permOf n qs)) x / 2 ^ (n - qs.length) =
        bitsToNat bs
    · rw [if_pos hcase, hcase]
      exact hfiber _ (Nat.mod_lt _ (Nat.pos_pow_of_pos _ (by norm_num)))
    · rw [if_neg hcase]
  rw [hraw]
  split_ifs
  · exact zero_div _
  · rfl

/-- Witness for the amended C7 at the concrete input: 1-qubit `|0⟩` register
collapsed on the zero-probability outcome `"1"`. -/
theorem C7_witness :
    marginalCode 1 [0] wCircuit1.state (bitsToNat [1]) = 0 ∧
      collapseCore 1 [0] [1] wCircuit1.state 1 = 0 := by
  have hzero : marginalCode 1 [0] wCircuit1.state (bitsToNat [1]) = 0 := by
    unfold marginalCode
    rw [show (2 : ℕ) ^ (1 - List.length [0]) = 1 from rfl, Finset.sum_range_one]
    unfold transposeVec
    rw [show scatterIdx 1 (permOf 1 [0]) (bitsToNat [1] * 1 + 0) = 1 from by decide]
    simp [wCircuit1]
  exact ⟨hzero, C7_zero_probability_collapse_is_silent 1 [0] [1] wCircuit1.state
    (by decide) hzero 1⟩

/-! ## Norm preservation (claim C5 infrastructure) -/

/-- Splitting a sum over `range (a * b)` along `t = r * b + c`. -/
theorem sum_mul_split {M : Type*} [AddCommMonoid M] (a b : ℕ) (G : ℕ → M) :
    ∑ t ∈ Finset.range (a * b), G t =
      ∑ r ∈ Finset.range a, ∑ c ∈ Finset.range b, G (r * b + c) := by
  rw [← Finset.sum_product']
  refine Finset.sum_nbij' (fun t => (t / b, t % b)) (fun rc => rc.1 * b + rc.2) ?_ ?_ ?_ ?_ ?_
  · intro t ht
    have ht' := Finset.mem_range.mp ht
    have hb : 0 < b := by
      rcases Nat.eq_zero_or_pos b with hb0 | hb0
      · subst hb0; simp at ht'
      · exact hb0
    rw [Finset.mem_product]
    constructor
    · rw [Finset.mem_range]
      exact Nat.div_lt_of_lt_mul (by rwa [mul_comm] at ht')
    · rw [Finset.mem_range]
      exact Nat.mod_lt _ hb
  · intro rc hrc
    rw [Finset.mem_product] at hrc
    obtain ⟨h1, h2⟩ := hrc
    rw [Finset.mem_range] at h1 h2 ⊢
    calc rc.1 * b + rc.2 < rc.1 * b + b := by omega
      _ = (rc.1 + 1) * b := by ring
      _ ≤ a * b := Nat.mul_le_mul_right _ (by omega)
  · intro t _
    exact Nat.div_add_mod' t b
  · intro rc hrc
    rw [Finset.mem_product] at hrc
    obtain ⟨_, h2⟩ := hrc
    rw [Finset.mem_range] at h2
    have hd : (rc.1 * b + rc.2) / b = rc.1 := by
      rw [add_comm, Nat.add_mul_div_right _ _ (by omega), Nat.div_eq_of_lt h2]
      omega
    have hm : (rc.1 * b + rc.2) % b = rc.2 := by
      rw [add_comm, Nat.add_mul_mod_self_right, Nat.mod_eq_of_lt h2]
    show ((rc.1 * b + rc.2) / b, (rc.1 * b + rc.2) % b) = rc
    rw [hd, hm]
  · intro t _
    rw [Nat.div_add_mod' t b]

/-- `Uᴴ U = I` restricted to the leading `m × m` block (the caller-supplied
matrix being unitary, per the spec's contract). -/
def IsUnitaryOn (U : ℕ → ℕ → ℂ) (m : ℕ) : Prop :=
  ∀ a < m, ∀ b < m,
    (∑ r ∈ Finset.range m, (starRingEnd ℂ) (U r a) * U r b) = if a = b then 1 else 0

/-- A unitary matrix preserves the sum of squared magnitudes. -/
theorem unitary_preserves_sq_sum {U : ℕ → ℕ → ℂ} {m : ℕ} (hU : IsUnitaryOn U m)
    (v : ℕ → ℂ) :
    ∑ r ∈ Finset.range m, Complex.normSq (∑ y ∈ Finset.range m, U r y * v y) =
      ∑ y ∈ Finset.range m, Complex.normSq (v y) := by
  have key : (∑ r ∈ Finset.range m, (∑ y ∈ Finset.range m, U r y * v y) *
      (starRingEnd ℂ) (∑ y ∈ Finset.range m, U r y * v y)) =
      ∑ y ∈ Finset.range m, v y * (starRingEnd ℂ) (v y) := by
    have hexp : ∀ r : ℕ, (∑ y ∈ Finset.range m, U r y * v y) *
        (starRingEnd ℂ) (∑ y ∈ Finset.range m, U r y * v y) =
        ∑ y ∈ Finset.range m, ∑ z ∈ Finset.range m,
          ((starRingEnd ℂ) (U r z) * U r y) * (v y * (starRingEnd ℂ) (v z)) := by
      intro r
      rw [map_sum, Finset.sum_mul_sum]
      apply Finset.sum_congr rfl
      intro y _
      apply Finset.sum_congr rfl
      intro z _
      rw [map_mul]
      ring
    rw [Finset.sum_congr rfl (fun r _ => hexp r)]
    rw [Finset.sum_comm]
    have hswap : ∀ y ∈ Finset.range m,
        (∑ r ∈ Finset.range m, ∑ z ∈ Finset.range m,
          ((starRingEnd ℂ) (U r z) * U r y) * (v y * (starRingEnd ℂ) (v z))) =
        ∑ z ∈ Finset.range m,
          (∑ r ∈ Finset.range m, (starRingEnd ℂ) (U r z) * U r y) *
            (v y * (starRingEnd ℂ) (v z)) := by
      intro y _
      rw [Finset.sum_comm]
      apply Finset.sum_congr rfl
      intro z _
      rw [Finset.sum_mul]
    rw [Finset.sum_congr rfl hswap]
    apply Finset.sum_congr rfl
    intro y hy
    have hdelta : ∀ z ∈ Finset.range m,
        (∑ r ∈ Finset.range m, (starRingEnd ℂ) (U r z) * U r y) *
          (v y * (starRingEnd ℂ) (v z)) =
        (if z = y then 1 else 0) * (v y * (starRingEnd ℂ) (v z)) := by
      intro z hz
      rw [hU z (Finset.mem_range.mp hz) y (Finset.mem_range.mp hy)]
    rw [Finset.sum_congr rfl hdelta]
    have hterm : ∀ z ∈ Finset.range m,
        (if z = y then 1 else 0) * (v y * (starRingEnd ℂ) (v z)) =
        if z = y then v y * (starRingEnd ℂ) (v z) else 0 := by
      intro z _
      by_cases hzy : z = y
      · rw [if_pos hzy, if_pos hzy, one_mul]
      · rw [if_neg hzy, if_neg hzy, zero_mul]
    rw [Finset.sum_congr rfl hterm,
      Finset.sum_ite_eq' (Finset.range m) y (fun z => v y * (starRingEnd ℂ) (v z)), if_pos hy]
  have hL : ((∑ r ∈ Finset.range m,
      Complex.normSq (∑ y ∈ Finset.range m, U r y * v y) : ℝ) : ℂ) =
      ∑ r ∈ Finset.range m, (∑ y ∈ Finset.range m, U r y * v y) *
        (starRingEnd ℂ) (∑ y ∈ Finset.range m, U r y * v y) := by
    push_cast
    exact Finset.sum_congr rfl (fun r _ => (Complex.mul_conj _).symm)
  have hR : ((∑ y ∈ Finset.range m, Complex.normSq (v y) : ℝ) : ℂ) =
      ∑ y ∈ Finset.range m, v y * (starRingEnd ℂ) (v y) := by
    push_cast
    exact Finset.sum_congr rfl (fun y _ => (Complex.mul_conj _).symm)
  have := hL.trans (key.trans hR.symm)
  exact_mod_cast this

/-- The column part of a transposed glued index is stable under substitution
of the row part. -/
theorem substIdx_scatter_glue {n : ℕ} {qs : List ℕ} (h : ValidQubits n qs)
    {r c' y : ℕ} (hr : r < 2 ^ qs.length) (hc : c' < 2 ^ (n - qs.length))
    (hy : y < 2 ^ qs.length) :
    substIdx n qs (scatterIdx n (permOf n qs) (r * 2 ^ (n - qs.length) + c')) y =
      scatterIdx n (permOf n qs) (y * 2 ^ (n - qs.length) + c') := by
  have hp := h.perm_valid
  have hk := h.len_le
  have hkn : qs.length + (n - qs.length) = n := by omega
  have ht : r * 2 ^ (n - qs.length) + c' < 2 ^ n := by
    have := mul_add_lt_pow qs.length (n - qs.length) r c' hr hc
    rwa [hkn] at this
  have hmod : scatterIdx n (argsortPerm n (permOf n qs))
      (scatterIdx n (permOf n qs) (r * 2 ^ (n - qs.length) + c')) % 2 ^ (n - qs.length) =
      c' := by
    rw [scatterIdx_argsort_scatterIdx hp ht, add_comm, Nat.add_mul_mod_self_right]
    exact Nat.mod_eq_of_lt hc
  have hsub := scatter_glue_eq_substIdx h (scatterIdx_lt hp
    (r * 2 ^ (n - qs.length) + c')) hy
  rw [hmod] at hsub
  exact hsub.symm

/-- Applying a unitary matrix through the spec formula preserves the total
squared magnitude: `U ⊗ I` acts unitarily fiber-by-fiber. -/
theorem sum_normSq_applySpec {n : ℕ} {qs : List ℕ} (h : ValidQubits n qs)
    {U : ℕ → ℕ → ℂ} (hU : IsUnitaryOn U (2 ^ qs.length)) (ψ : ℕ → ℂ) :
    ∑ x ∈ Finset.range (2 ^ n), Complex.normSq (applyUnitarySpec n U qs ψ x) =
      ∑ x ∈ Finset.range (2 ^ n), Complex.normSq (ψ x) := by
  have hp := h.perm_valid
  have hk := h.len_le
  have hkn : qs.length + (n - qs.length) = n := by omega
  have hpow : 2 ^ qs.length * 2 ^ (n - qs.length) = 2 ^ n := by
    rw [← pow_add, hkn]
  have h1 : ∑ x ∈ Finset.range (2 ^ n), Complex.normSq (applyUnitarySpec n U qs ψ x) =
      ∑ t ∈ Finset.range (2 ^ n),
        Complex.normSq (applyUnitarySpec n U qs ψ (scatterIdx n (permOf n qs) t)) :=
    (sum_scatterIdx hp (fun x => Complex.normSq (applyUnitarySpec n U qs ψ x))).symm
  have h2 : ∑ x ∈ Finset.range (2 ^ n), Complex.normSq (ψ x) =
      ∑ t ∈ Finset.range (2 ^ n), Complex.normSq (ψ (scatterIdx n (permOf n qs) t)) :=
    (sum_scatterIdx hp (fun x => Complex.normSq (ψ x))).symm
  rw [h1, h2, ← hpow, sum_mul_split, sum_mul_split]
  have hcell : ∀ r ∈ Finset.range (2 ^ qs.length),
      ∀ c' ∈ Finset.range (2 ^ (n - qs.length)),
      Complex.normSq (applyUnitarySpec n U qs ψ
        (scatterIdx n (permOf n qs) (r * 2 ^ (n - qs.length) + c'))) =
      Complex.normSq (∑ y ∈ Finset.range (2 ^ qs.length), U r y *
        ψ (scatterIdx n (permOf n qs) (y * 2 ^ (n - qs.length) + c'))) := by
    intro r hr c' hc'
    have hr' := Finset.mem_range.mp hr
    have hc'' := Finset.mem_range.mp hc'
    congr 1
    unfold applyUnitarySpec
    apply Finset.sum_congr rfl
    intro y hy
    have hy' := Finset.mem_range.mp hy
    rw [rowIdx_scatter_glue h hr' hc'', substIdx_scatter_glue h hr' hc'' hy']
  rw [Finset.sum_congr rfl (fun r hr => Finset.sum_congr rfl (fun c' hc' => hcell r hr c' hc'))]
  rw [Finset.sum_comm]
  conv_rhs => rw [Finset.sum_comm]
  apply Finset.sum_congr rfl
  intro c' _
  exact unitary_preserves_sq_sum hU
    (fun y => ψ (scatterIdx n (permOf n qs) (y * 2 ^ (n - qs.length) + c')))

/-- The squared-magnitude sum of a basis vector is 1. -/
theorem sum_normSq_indicator (m idx : ℕ) (h : idx < m) :
    ∑ x ∈ Finset.range m, Complex.normSq (if x = idx then (1 : ℂ) else 0) = 1 := by
  rw [Finset.sum_eq_single idx]
  · rw [if_pos rfl, Complex.normSq_one]
  · intro x _ hx
    rw [if_neg hx, Complex.normSq_zero]
  · intro habs
    exact absurd (Finset.mem_range.mpr h) habs

/-! ## The sorted key list of `measure` -/

/-- The length of every bit-string key of the distribution: `num_qubits` for
the empty tuple (fast path), `len(qubit_tuple)` otherwise. -/
def keyLen (n : ℕ) (qs : List ℕ) : ℕ := if qs.isEmpty then n else qs.length

theorem probsList_keys (n : ℕ) (qs : List ℕ) (ψ : ℕ → ℂ) :
    (probsList n qs ψ).map Prod.fst =
      (List.range (2 ^ keyLen n qs)).map (natToBits (keyLen n qs)) := by
  unfold probsList keyLen
  by_cases h : qs.isEmpty
  · rw [if_pos h, if_pos h, List.map_map]
    rfl
  · rw [if_neg h, if_neg h, List.map_map]
    rfl

theorem natToBits_length (k i : ℕ) : (natToBits k i).length = k := by
  simp [natToBits]

theorem natToBits_succ (k i : ℕ) :
    natToBits (k + 1) i = (i / 2 ^ k % 2) :: natToBits k (i % 2 ^ k) := by
  unfold natToBits
  rw [List.range_succ_eq_map, List.map_cons, List.map_map]
  congr 1
  apply List.map_congr_left
  intro q hq
  show bitOf (k + 1) (q + 1) i = bitOf k q (i % 2 ^ k)
  exact bitOf_succ k q i (List.mem_range.mp hq)

/-- `natToBits` is strictly monotone for the lexicographic string order. -/
theorem strLtB_natToBits {K i j : ℕ} (hij : i < j) (hj : j < 2 ^ K) :
    strLtB (natToBits K i) (natToBits K j) = true := by
  induction K generalizing i j with
  | zero =>
    simp at hj
    omega
  | succ k ih =>
    rw [natToBits_succ, natToBits_succ]
    have hi : i < 2 ^ (k + 1) := lt_trans hij hj
    have hjb : j / 2 ^ k < 2 := by
      apply Nat.div_lt_of_lt_mul
      rw [← pow_succ]
      exact hj
    have hib : i / 2 ^ k < 2 := by
      apply Nat.div_lt_of_lt_mul
      rw [← pow_succ]
      exact hi
    have hmi : i / 2 ^ k % 2 = i / 2 ^ k := Nat.mod_eq_of_lt hib
    have hmj : j / 2 ^ k % 2 = j / 2 ^ k := Nat.mod_eq_of_lt hjb
    rw [hmi, hmj]
    show (if i / 2 ^ k < j / 2 ^ k then true
      else if j / 2 ^ k < i / 2 ^ k then false
      else strLtB (natToBits k (i % 2 ^ k)) (natToBits k (j % 2 ^ k))) = true
    have hih : i / 2 ^ k ≤ j / 2 ^ k := Nat.div_le_div_right (le_of_lt hij)
    by_cases hlt : i / 2 ^ k < j / 2 ^ k
    · rw [if_pos hlt]
    · rw [if_neg hlt, if_neg (by omega)]
      apply ih
      · have h1 := Nat.div_add_mod i (2 ^ k)
        have h2 := Nat.div_add_mod j (2 ^ k)
        have heq : i / 2 ^ k = j / 2 ^ k := by omega
        rw [heq] at h1
        omega
      · exact Nat.mod_lt _ (Nat.pos_pow_of_pos _ (by norm_num))

theorem keys_sorted (K : ℕ) :
    List.Sorted strLe ((List.range (2 ^ K)).map (natToBits K)) := by
  apply List.pairwise_map.mpr
  apply List.Pairwise.imp_of_mem ?_ (List.pairwise_lt_range (2 ^ K))
  intro a b _ hb hab
  exact Or.inr (strLtB_natToBits hab (List.mem_range.mp hb))

/-- `sorted(outcome_distribution.keys())` is the key list itself: the keys
are generated in ascending (hence lexicographically sorted) order. -/
theorem measureBitstrings_eq (n : ℕ) (qs : List ℕ) (ψ : ℕ → ℂ) :
    measureBitstrings n qs ψ =
      (List.range (2 ^ keyLen n qs)).map (natToBits (keyLen n qs)) := by
  unfold measureBitstrings
  rw [probsList_keys]
  exact List.Sorted.insertionSort_eq (keys_sorted (keyLen n qs))

theorem measureBitstrings_length (n : ℕ) (qs : List ℕ) (ψ : ℕ → ℂ) :
    (measureBitstrings n qs ψ).length = 2 ^ keyLen n qs := by
  rw [measureBitstrings_eq]
  simp

theorem foldl_twice_shift (l : List ℕ) : ∀ a : ℕ,
    l.foldl (fun x y => 2 * x + y) a =
      a * 2 ^ l.length + l.foldl (fun x y => 2 * x + y) 0 := by
  induction l with
  | nil =>
    intro a
    simp
  | cons b t ih =>
    intro a
    rw [List.foldl_cons, List.foldl_cons, ih (2 * a + b), ih (2 * 0 + b), List.length_cons]
    ring

/-- `int(format(i, f"0{K}b"), 2) = i`. -/
theorem bitsToNat_natToBits {K i : ℕ} (hi : i < 2 ^ K) : bitsToNat (natToBits K i) = i := by
  induction K generalizing i with
  | zero =>
    simp at hi
    subst hi
    rfl
  | succ k ih =>
    rw [natToBits_succ]
    unfold bitsToNat
    rw [List.foldl_cons]
    rw [foldl_twice_shift, natToBits_length]
    have hmod : i % 2 ^ k < 2 ^ k := Nat.mod_lt _ (Nat.pos_pow_of_pos _ (by norm_num))
    have hih := ih hmod
    unfold bitsToNat at hih
    rw [hih]
    have hdi : i / 2 ^ k % 2 = i / 2 ^ k := Nat.mod_eq_of_lt (by
      apply Nat.div_lt_of_lt_mul
      rw [← pow_succ]
      exact hi)
    rw [hdi]
    have h0 : 2 * 0 + i / 2 ^ k = i / 2 ^ k := by omega
    rw [h0]
    exact Nat.div_add_mod' i (2 ^ k)

/-- Destructuring a successful `measure` call. -/
theorem measure_ok {c : QuantumCircuit} {qubits : Option (List ℤ)} {shots : ℤ}
    {rng : ℕ → ℕ → List ℝ → List ℕ} {res : MeasurementResult} {c' : QuantumCircuit}
    {qs : List ℕ} (hq : normaliseQubits c.num_qubits qubits = .ok qs)
    (h : c.measure qubits shots rng = .ok (res, c')) :
    0 < shots ∧
      res = ⟨(List.range (measureBitstrings c.num_qubits qs c.state).length).map
        (fun j => ((measureBitstrings c.num_qubits qs c.state).getD j [],
          (measureOutcomes c.num_qubits qs c.state shots.toNat rng).count j))⟩ ∧
      c' = ⟨c.num_qubits, collapseCore c.num_qubits qs
        ((measureBitstrings c.num_qubits qs c.state).getD
          ((measureOutcomes c.num_qubits qs c.state shots.toNat rng).getLastD 0) [])
        c.state⟩ := by
  unfold QuantumCircuit.measure at h
  by_cases hs : shots ≤ 0
  · rw [if_pos hs] at h
    cases h
  · rw [if_neg hs, hq] at h
    dsimp only at h
    rw [Except.ok.injEq, Prod.mk.injEq] at h
    exact ⟨by omega, h.1.symm, h.2.symm⟩

/-! ## Collapse lemmas -/

/-- The Frobenius norm squared of the collapsed matrix is the marginal
probability of the outcome row. -/
theorem collapseNormSq_eq_marginal {n : ℕ} (qs bs : List ℕ) (ψ : ℕ → ℂ)
    (hoi : bitsToNat bs < 2 ^ qs.length) :
    collapseNormSq n qs bs ψ = marginalCode n qs ψ (bitsToNat bs) := by
  unfold collapseNormSq marginalCode
  have hinner : ∀ r ∈ Finset.range (2 ^ qs.length),
      (∑ c ∈ Finset.range (2 ^ (n - qs.length)),
        Complex.normSq (if r = bitsToNat bs then
          transposeVec n (permOf n qs) ψ (r * 2 ^ (n - qs.length) + c) else 0)) =
      if r = bitsToNat bs then
        (∑ c ∈ Finset.range (2 ^ (n - qs.length)),
          Complex.normSq (transposeVec n (permOf n qs) ψ (r * 2 ^ (n - qs.length) + c)))
      else 0 := by
    intro r _
    by_cases hr : r = bitsToNat bs
    · rw [if_pos hr]
      apply Finset.sum_congr rfl
      intro c _
      rw [if_pos hr]
    · rw [if_neg hr]
      rw [Finset.sum_congr rfl (fun c _ => by rw [if_neg hr])]
      simp
  rw [Finset.sum_congr rfl hinner,
    Finset.sum_ite_eq' (Finset.range (2 ^ qs.length)) (bitsToNat bs)
      (fun r => ∑ c ∈ Finset.range (2 ^ (n - qs.length)),
        Complex.normSq (transposeVec n (permOf n qs) ψ (r * 2 ^ (n - qs.length) + c))),
    if_pos (Finset.mem_range.mpr hoi)]

/-- Pointwise evaluation of a (positive-norm) collapse. -/
theorem collapseCore_eval_pos {n : ℕ} {qs bs : List ℕ} {ψ : ℕ → ℂ}
    (hne : qs ≠ []) (hpos : 0 < Real.sqrt (collapseNormSq n qs bs ψ)) (x : ℕ) :
    collapseCore n qs bs ψ x =
      (if scatterIdx n (argsortPerm n (permOf n qs)) x / 2 ^ (n - qs.length) =
          bitsToNat bs then
        transposeVec n (permOf n qs) ψ
          (scatterIdx n (argsortPerm n (permOf n qs)) x / 2 ^ (n - qs.length) *
              2 ^ (n - qs.length) +
            scatterIdx n (argsortPerm n (permOf n qs)) x % 2 ^ (n - qs.length))
      else 0) / ((Real.sqrt (collapseNormSq n qs bs ψ) : ℝ) : ℂ) := by
  unfold collapseCore
  rw [if_neg (by simpa [List.isEmpty_iff] using hne)]
  dsimp only
  rw [if_pos hpos]

/-- States inconsistent with the measured outcome have amplitude 0 after
collapse. -/
theorem collapseCore_zero_of_ne {n : ℕ} {qs bs : List ℕ} {ψ : ℕ → ℂ}
    (h : ValidQubits n qs) (hne : qs ≠ []) {x : ℕ} (hx : x < 2 ^ n)
    (hneq : rowIdx n qs x ≠ bitsToNat bs) :
    collapseCore n qs bs ψ x = 0 := by
  unfold collapseCore
  rw [if_neg (by simpa [List.isEmpty_iff] using hne)]
  dsimp only
  rw [scatter_argsort_div_eq_rowIdx h hx, if_neg hneq]
  split_ifs
  · exact zero_div _
  · rfl

/-- Collapse evaluated on a transposed glued index. -/
theorem collapseCore_at_scatter {n : ℕ} {qs bs : List ℕ} {ψ : ℕ → ℂ}
    (h : ValidQubits n qs) (hne : qs ≠ [])
    (hpos : 0 < Real.sqrt (collapseNormSq n qs bs ψ))
    {r c' : ℕ} (hr : r < 2 ^ qs.length) (hc : c' < 2 ^ (n - qs.length)) :
    collapseCore n qs bs ψ (scatterIdx n (permOf n qs) (r * 2 ^ (n - qs.length) + c')) =
      (if r = bitsToNat bs then
        transposeVec n (permOf n qs) ψ (r * 2 ^ (n - qs.length) + c') else 0) /
      ((Real.sqrt (collapseNormSq n qs bs ψ) : ℝ) : ℂ) := by
  have hp := h.perm_valid
  have hk := h.len_le
  have hkn : qs.length + (n - qs.length) = n := by omega
  have ht : r * 2 ^ (n - qs.length) + c' < 2 ^ n := by
    have := mul_add_lt_pow qs.length (n - qs.length) r c' hr hc
    rwa [hkn] at this
  rw [collapseCore_eval_pos hne hpos]
  rw [scatterIdx_argsort_scatterIdx hp ht]
  have hdiv : (r * 2 ^ (n - qs.length) + c') / 2 ^ (n - qs.length) = r := by
    rw [add_comm, Nat.add_mul_div_right _ _ (Nat.pos_pow_of_pos _ (by norm_num)),
      Nat.div_eq_of_lt hc]
    omega
  have hmod2 : (r * 2 ^ (n - qs.length) + c') % 2 ^ (n - qs.length) = c' := by
    rw [add_comm, Nat.add_mul_mod_self_right, Nat.mod_eq_of_lt hc]
  rw [hdiv, hmod2]

/-- Collapse on a positive-probability outcome renormalizes the surviving
amplitudes to unit total squared magnitude. -/
theorem sum_normSq_collapseCore {n : ℕ} {qs bs : List ℕ} {ψ : ℕ → ℂ}
    (h : ValidQubits n qs) (hne : qs ≠ [])
    (hoi : bitsToNat bs < 2 ^ qs.length)
    (hpos : 0 < marginalCode n qs ψ (bitsToNat bs)) :
    ∑ x ∈ Finset.range (2 ^ n), Complex.normSq (collapseCore n qs bs ψ x) = 1 := by
  have hp := h.perm_valid
  have hk := h.len_le
  have hkn : qs.length + (n - qs.length) = n := by omega
  have hpow : 2 ^ qs.length * 2 ^ (n - qs.length) = 2 ^ n := by
    rw [← pow_add, hkn]
  have hM : collapseNormSq n qs bs ψ = marginalCode n qs ψ (bitsToNat bs) :=
    collapseNormSq_eq_marginal qs bs ψ hoi
  have hMpos : 0 < collapseNormSq n qs bs ψ := hM ▸ hpos
  have hsq : 0 < Real.sqrt (collapseNormSq n qs bs ψ) := Real.sqrt_pos.mpr hMpos
  have h1 : ∑ x ∈ Finset.range (2 ^ n), Complex.normSq (collapseCore n qs bs ψ x) =
      ∑ t ∈ Finset.range (2 ^ n),
        Complex.normSq (collapseCore n qs bs ψ (scatterIdx n (permOf n qs) t)) :=
    (sum_scatterIdx hp (fun x => Complex.normSq (collapseCore n qs bs ψ x))).symm
  rw [h1, ← hpow, sum_mul_split]
  have hcell : ∀ r ∈ Finset.range (2 ^ qs.length),
      ∀ c' ∈ Finset.range (2 ^ (n - qs.length)),
      Complex.normSq (collapseCore n qs bs ψ
        (scatterIdx n (permOf n qs) (r * 2 ^ (n - qs.length) + c'))) =
      Complex.normSq (if r = bitsToNat bs then
        transposeVec n (permOf n qs) ψ (r * 2 ^ (n - qs.length) + c') else 0) /
        collapseNormSq n qs bs ψ := by
    intro r hr c' hc'
    rw [collapseCore_at_scatter h hne hsq (Finset.mem_range.mp hr) (Finset.mem_range.mp hc')]
    rw [Complex.normSq_div]
    congr 1
    rw [Complex.normSq_ofReal]
    exact Real.mul_self_sqrt (le_of_lt hMpos)
  rw [Finset.sum_congr rfl (fun r hr => Finset.sum_congr rfl (fun c' hc' => hcell r hr c' hc'))]
  have hdiv1 : ∀ r ∈ Finset.range (2 ^ qs.length),
      (∑ c' ∈ Finset.range (2 ^ (n - qs.length)),
        Complex.normSq (if r = bitsToNat bs then
          transposeVec n (permOf n qs) ψ (r * 2 ^ (n - qs.length) + c') else 0) /
          collapseNormSq n qs bs ψ) =
      (∑ c' ∈ Finset.range (2 ^ (n - qs.length)),
        Complex.normSq (if r = bitsToNat bs then
          transposeVec n (permOf n qs) ψ (r * 2 ^ (n - qs.length) + c') else 0)) /
        collapseNormSq n qs bs ψ := by
    intro r _
    rw [Finset.sum_div]
  rw [Finset.sum_congr rfl hdiv1, ← Finset.sum_div]
  have hcol : (∑ r ∈ Finset.range (2 ^ qs.length),
      ∑ c' ∈ Finset.range (2 ^ (n - qs.length)),
      Complex.normSq (if r = bitsToNat bs then
        transposeVec n (permOf n qs) ψ (r * 2 ^ (n - qs.length) + c') else 0)) =
      collapseNormSq n qs bs ψ := rfl
  rw [hcol]
  exact div_self (ne_of_gt hMpos)

/-- After collapsing on a positive-probability outcome, the marginal over
the measured tuple is the point distribution at that outcome. -/
theorem marginalCode_collapseCore {n : ℕ} {qs bs : List ℕ} {ψ : ℕ → ℂ}
    (h : ValidQubits n qs) (hne : qs ≠ [])
    (hoi : bitsToNat bs < 2 ^ qs.length)
    (hpos : 0 < marginalCode n qs ψ (bitsToNat bs))
    {r : ℕ} (hr : r < 2 ^ qs.length) :
    marginalCode n qs (collapseCore n qs bs ψ) r = if r = bitsToNat bs then 1 else 0 := by
  have hM : collapseNormSq n qs bs ψ = marginalCode n qs ψ (bitsToNat bs) :=
    collapseNormSq_eq_marginal qs bs ψ hoi
  have hMpos : 0 < collapseNormSq n qs bs ψ := hM ▸ hpos
  have hsq : 0 < Real.sqrt (collapseNormSq n qs bs ψ) := Real.sqrt_pos.mpr hMpos
  unfold marginalCode
  by_cases hcase : r = bitsToNat bs
  · rw [if_pos hcase]
    have hcell : ∀ c' ∈ Finset.range (2 ^ (n - qs.length)),
        Complex.normSq (transposeVec n (permOf n qs) (collapseCore n qs bs ψ)
          (r * 2 ^ (n - qs.length) + c')) =
        Complex.normSq (transposeVec n (permOf n qs) ψ (r * 2 ^ (n - qs.length) + c')) /
          collapseNormSq n qs bs ψ := by
      intro c' hc'
      show Complex.normSq (collapseCore n qs bs ψ
        (scatterIdx n (permOf n qs) (r * 2 ^ (n - qs.length) + c'))) = _
      rw [collapseCore_at_scatter h hne hsq hr (Finset.mem_range.mp hc'), if_pos hcase]
      rw [Complex.normSq_div, Complex.normSq_ofReal, Real.mul_self_sqrt (le_of_lt hMpos)]
    rw [Finset.sum_congr rfl hcell, ← Finset.sum_div]
    have hmarg : (∑ c' ∈ Finset.range (2 ^ (n - qs.length)),
        Complex.normSq (transposeVec n (permOf n qs) ψ (r * 2 ^ (n - qs.length) + c'))) =
        marginalCode n qs ψ r := rfl
    rw [hmarg, hcase, ← hM]
    exact div_self (ne_of_gt hMpos)
  · rw [if_neg hcase]
    have hcell : ∀ c' ∈ Finset.range (2 ^ (n - qs.length)),
        Complex.normSq (transposeVec n (permOf n qs) (collapseCore n qs bs ψ)
          (r * 2 ^ (n - qs.length) + c')) = 0 := by
      intro c' hc'
      show Complex.normSq (collapseCore n qs bs ψ
        (scatterIdx n (permOf n qs) (r * 2 ^ (n - qs.length) + c'))) = 0
      rw [collapseCore_at_scatter h hne hsq hr (Finset.mem_range.mp hc'), if_neg hcase]
      simp
    rw [Finset.sum_congr rfl hcell]
    simp

/-! ## Claim C3 -/

theorem getLastD_mem (l : List ℕ) (d : ℕ) (h : l ≠ []) : l.getLastD d ∈ l := by
  rw [List.getLastD_eq_getLast?]
  cases hl : l.getLast? with
  | none =>
    rw [List.getLast?_eq_none_iff] at hl
    exact absurd hl h
  | some a =>
    simp only [Option.getD_some]
    exact List.mem_of_mem_getLast? (by rw [hl]; rfl)

theorem list_sum_map_range {M : Type*} [AddCommMonoid M] (m : ℕ) (f : ℕ → M) :
    ((List.range m).map f).sum = ∑ j ∈ Finset.range m, f j := by
  induction m with
  | zero => simp
  | succ t ih =>
    rw [List.range_succ, List.map_append, List.sum_append, Finset.sum_range_succ, ih]
    simp

theorem sum_count_eq_length (m : ℕ) :
    ∀ outs : List ℕ, (∀ o ∈ outs, o < m) →
      (∑ j ∈ Finset.range m, outs.count j) = outs.length := by
  intro outs
  induction outs with
  | nil =>
    intro _
    simp
  | cons a l ih =>
    intro h
    have ha : a < m := h a (List.mem_cons_self a l)
    have hl : ∀ o ∈ l, o < m := fun o ho => h o (List.mem_cons_of_mem a ho)
    have hterm : ∀ j ∈ Finset.range m,
        (a :: l).count j = l.count j + if j = a then 1 else 0 := by
      intro j _
      rw [List.count_cons]
      by_cases hja : j = a
      · subst hja
        simp
      · rw [if_neg (by simp only [beq_iff_eq]; exact fun hc => hja hc.symm), if_neg hja]
    rw [Finset.sum_congr rfl hterm, Finset.sum_add_distrib, ih hl,
      Finset.sum_ite_eq' (Finset.range m) a (fun _ => 1),
      if_pos (Finset.mem_range.mpr ha)]
    simp

/-- C3: with a validated qubit tuple, a positive shot count and an rng that
returns `shots` in-range indices, `measure` succeeds; the returned counts
tally the multiplicity of each sorted bit string among the sampled outcomes,
so `total_shots()` equals the requested shots, and the register state is
replaced exactly once — by the collapse of the pre-measurement state onto
the last-drawn outcome.  (Independence and distribution of the draws are
delegated to the injected generator: the code passes `rng.choice` exactly
`len(bitstrings)`, `shots` and the marginal probability vector, which the
`measureOutcomes` oracle receives.) -/
theorem C3_measure_counts_and_single_collapse
    (c : QuantumCircuit) (qubits : Option (List ℤ)) (shots : ℤ)
    (rng : ℕ → ℕ → List ℝ → List ℕ) (qs : List ℕ)
    (hq : normaliseQubits c.num_qubits qubits = .ok qs)
    (hs : 0 < shots)
    (hlen : (measureOutcomes c.num_qubits qs c.state shots.toNat rng).length = shots.toNat)
    (hmem : ∀ o ∈ measureOutcomes c.num_qubits qs c.state shots.toNat rng,
      o < 2 ^ keyLen c.num_qubits qs) :
    c.measure qubits shots rng = .ok
      (⟨(List.range (2 ^ keyLen c.num_qubits qs)).map (fun j =>
          (natToBits (keyLen c.num_qubits qs) j,
            (measureOutcomes c.num_qubits qs c.state shots.toNat rng).count j))⟩,
        ⟨c.num_qubits, collapseCore c.num_qubits qs
          (natToBits (keyLen c.num_qubits qs)
            ((measureOutcomes c.num_qubits qs c.state shots.toNat rng).getLastD 0))
          c.state⟩) ∧
      (MeasurementResult.mk ((List.range (2 ^ keyLen c.num_qubits qs)).map (fun j =>
          (natToBits (keyLen c.num_qubits qs) j,
            (measureOutcomes c.num_qubits qs c.state shots.toNat rng).count j)))).total_shots
        = shots.toNat := by
  have hKlen := measureBitstrings_length c.num_qubits qs c.state
  have houts_ne : measureOutcomes c.num_qubits qs c.state shots.toNat rng ≠ [] := by
    rw [← List.length_pos, hlen]
    omega
  have hlast : (measureOutcomes c.num_qubits qs c.state shots.toNat rng).getLastD 0 <
      2 ^ keyLen c.num_qubits qs :=
    hmem _ (getLastD_mem _ 0 houts_ne)
  constructor
  · unfold QuantumCircuit.measure
    rw [if_neg (by omega), hq]
    dsimp only
    rw [Except.ok.injEq, Prod.mk.injEq]
    constructor
    · rw [MeasurementResult.mk.injEq, hKlen]
      apply List.map_congr_left
      intro j hj
      rw [measureBitstrings_eq, getD_map_range _ _ _ _ (List.mem_range.mp hj)]
    · rw [QuantumCircuit.mk.injEq]
      refine ⟨rfl, ?_⟩
      rw [measureBitstrings_eq, getD_map_range _ _ _ _ hlast]
  · unfold MeasurementResult.total_shots
    rw [List.map_map]
    have hcomp : ((List.range (2 ^ keyLen c.num_qubits qs)).map (Prod.snd ∘ fun j =>
        (natToBits (keyLen c.num_qubits qs) j,
          (measureOutcomes c.num_qubits qs c.state shots.toNat rng).count j))) =
        (List.range (2 ^ keyLen c.num_qubits qs)).map (fun j =>
          (measureOutcomes c.num_qubits qs c.state shots.toNat rng).count j) := rfl
    rw [hcomp, list_sum_map_range, sum_count_eq_length _ _ hmem, hlen]

/-- Witness for C3: 1-qubit register, full-register measurement, two shots,
an rng oracle that always samples index 0. -/
theorem C3_witness :
    wCircuit1.measure none 2 (fun _ s _ => List.replicate s 0) = .ok
      (⟨(List.range (2 ^ keyLen wCircuit1.num_qubits [0])).map (fun j =>
          (natToBits (keyLen wCircuit1.num_qubits [0]) j,
            (measureOutcomes wCircuit1.num_qubits [0] wCircuit1.state (2 : ℤ).toNat
              (fun _ s _ => List.replicate s 0)).count j))⟩,
        ⟨wCircuit1.num_qubits, collapseCore wCircuit1.num_qubits [0]
          (natToBits (keyLen wCircuit1.num_qubits [0])
            ((measureOutcomes wCircuit1.num_qubits [0] wCircuit1.state (2 : ℤ).toNat
              (fun _ s _ => List.replicate s 0)).getLastD 0))
          wCircuit1.state⟩) ∧
      (MeasurementResult.mk ((List.range (2 ^ keyLen wCircuit1.num_qubits [0])).map (fun j =>
          (natToBits (keyLen wCircuit1.num_qubits [0]) j,
            (measureOutcomes wCircuit1.num_qubits [0] wCircuit1.state (2 : ℤ).toNat
              (fun _ s _ => List.replicate s 0)).count j)))).total_shots
        = (2 : ℤ).toNat :=
  C3_measure_counts_and_single_collapse wCircuit1 none 2 (fun _ s _ => List.replicate s 0)
    [0] rfl (by decide) rfl (by decide)

/-! ## Claim C5 -/

/-- C5: the sum of squared magnitudes of the amplitude vector is exactly 1
(in the exact arithmetic of the model): at construction (all-zeros basis
state), after every successful gate application with a unitary matrix, and
after every successful measurement whose final sampled outcome has positive
marginal probability (collapse renormalizes; on the empty-tuple path the
state becomes a basis vector).  Probability queries are pure in this
embedding — they return a distribution and leave the register untouched —
so they preserve the invariant trivially. -/
theorem C5_unit_norm_invariant :
    (∀ (z : ℤ) (c : QuantumCircuit), mkQuantumCircuit z = .ok c →
      ∑ x ∈ Finset.range (2 ^ c.num_qubits), Complex.normSq (c.state x) = 1) ∧
    (∀ (c : QuantumCircuit) (U : NpMatrix) (l : List ℤ) (qs : List ℕ) (c' : QuantumCircuit),
      normaliseQubits c.num_qubits (some l) = .ok qs →
      IsUnitaryOn U.entry (2 ^ qs.length) →
      c.apply_custom U l = .ok c' →
      (∑ x ∈ Finset.range (2 ^ c.num_qubits), Complex.normSq (c.state x)) = 1 →
      ∑ x ∈ Finset.range (2 ^ c'.num_qubits), Complex.normSq (c'.state x) = 1) ∧
    (∀ (c : QuantumCircuit) (qubits : Option (List ℤ)) (shots : ℤ)
      (rng : ℕ → ℕ → List ℝ → List ℕ) (res : MeasurementResult) (c' : QuantumCircuit)
      (qs : List ℕ),
      normaliseQubits c.num_qubits qubits = .ok qs →
      c.measure qubits shots rng = .ok (res, c') →
      (measureOutcomes c.num_qubits qs c.state shots.toNat rng).length = shots.toNat →
      (∀ o ∈ measureOutcomes c.num_qubits qs c.state shots.toNat rng,
        o < 2 ^ keyLen c.num_qubits qs) →
      (qs ≠ [] → 0 < marginalCode c.num_qubits qs c.state
        ((measureOutcomes c.num_qubits qs c.state shots.toNat rng).getLastD 0)) →
      ∑ x ∈ Finset.range (2 ^ c'.num_qubits), Complex.normSq (c'.state x) = 1) := by
  refine ⟨?_, ?_, ?_⟩
  · intro z c hok
    unfold mkQuantumCircuit at hok
    split_ifs at hok with hz
    rw [Except.ok.injEq] at hok
    subst hok
    exact sum_normSq_indicator (2 ^ z.toNat) 0 (Nat.pos_pow_of_pos _ (by norm_num))
  · intro c U l qs c' hq hU hok hnorm
    obtain ⟨-, -, hc'⟩ := applyUnitaryImpl_ok hq hok
    subst hc'
    have hv := normaliseQubits_ok_valid hq
    have hcell : ∀ x ∈ Finset.range (2 ^ c.num_qubits),
        Complex.normSq (applyUnitaryCore c.num_qubits U.entry qs c.state x) =
        Complex.normSq (applyUnitarySpec c.num_qubits U.entry qs c.state x) := by
      intro x hx
      rw [applyUnitaryCore_eq_spec hv U.entry c.state (Finset.mem_range.mp hx)]
    show (∑ x ∈ Finset.range (2 ^ c.num_qubits),
      Complex.normSq (applyUnitaryCore c.num_qubits U.entry qs c.state x)) = 1
    rw [Finset.sum_congr rfl hcell, sum_normSq_applySpec hv hU c.state]
    exact hnorm
  · intro c qubits shots rng res c' qs hq hmeas hlen hmem hpos
    obtain ⟨hs, -, hc'⟩ := measure_ok hq hmeas
    have houts_ne : measureOutcomes c.num_qubits qs c.state shots.toNat rng ≠ [] := by
      rw [← List.length_pos, hlen]
      omega
    have hlast : (measureOutcomes c.num_qubits qs c.state shots.toNat rng).getLastD 0 <
        2 ^ keyLen c.num_qubits qs :=
      hmem _ (getLastD_mem _ 0 houts_ne)
    subst hc'
    rw [measureBitstrings_eq, getD_map_range _ _ _ _ hlast]
    by_cases hqe : qs = []
    · subst hqe
      have hKn : keyLen c.num_qubits [] = c.num_qubits := rfl
      rw [hKn] at hlast ⊢
      show (∑ x ∈ Finset.range (2 ^ c.num_qubits), Complex.normSq
        (collapseCore c.num_qubits [] (natToBits c.num_qubits
          ((measureOutcomes c.num_qubits [] c.state shots.toNat rng).getLastD 0)) c.state x)) = 1
      unfold collapseCore
      rw [if_pos (show ([] : List ℕ).isEmpty = true from rfl)]
      rw [bitsToNat_natToBits hlast]
      exact sum_normSq_indicator (2 ^ c.num_qubits) _ hlast
    · have hKk : keyLen c.num_qubits qs = qs.length := by
        unfold keyLen
        rw [if_neg (by simpa [List.isEmpty_iff] using hqe)]
      rw [hKk] at hlast ⊢
      have hv := normaliseQubits_ok_valid hq
      have hbit : bitsToNat (natToBits qs.length
          ((measureOutcomes c.num_qubits qs c.state shots.toNat rng).getLastD 0)) =
          (measureOutcomes c.num_qubits qs c.state shots.toNat rng).getLastD 0 :=
        bitsToNat_natToBits hlast
      apply sum_normSq_collapseCore hv hqe
      · rw [hbit]
        exact hlast
      · rw [hbit]
        exact hpos hqe

/-- The Pauli-X matrix is unitary on its 2×2 block. -/
theorem Xmat_unitary : IsUnitaryOn Xmat.entry 2 := by
  intro a ha b hb
  interval_cases a <;> interval_cases b <;>
    simp [Xmat, Finset.sum_range_succ]

/-- The constant rng oracle used by witnesses: always samples index 0. -/
def wRng : ℕ → ℕ → List ℝ → List ℕ := fun _ s _ => List.replicate s 0

/-- The measurement result of the witness `measure` call. -/
def wMeasRes : MeasurementResult :=
  ⟨(List.range (measureBitstrings 1 [0] wCircuit1.state).length).map
    (fun j => ((measureBitstrings 1 [0] wCircuit1.state).getD j [],
      (measureOutcomes 1 [0] wCircuit1.state 2 wRng).count j))⟩

/-- The collapsed register of the witness `measure` call. -/
def wMeasCircuit : QuantumCircuit :=
  ⟨1, collapseCore 1 [0] ((measureBitstrings 1 [0] wCircuit1.state).getD
    ((measureOutcomes 1 [0] wCircuit1.state 2 wRng).getLastD 0) []) wCircuit1.state⟩

/-- Witness for C5: unit norm at construction, after a Pauli-X gate, and
after a full 2-shot measurement with collapse on outcome "0". -/
theorem C5_witness :
    (∑ x ∈ Finset.range (2 ^ wCircuit1.num_qubits), Complex.normSq (wCircuit1.state x)) = 1 ∧
    (∑ x ∈ Finset.range (2 ^ wCircuit1X.num_qubits), Complex.normSq (wCircuit1X.state x)) = 1 ∧
    (∑ x ∈ Finset.range (2 ^ wMeasCircuit.num_qubits),
      Complex.normSq (wMeasCircuit.state x)) = 1 := by
  have hmarg : marginalCode 1 [0] wCircuit1.state 0 = 1 := by
    unfold marginalCode
    rw [show (2 : ℕ) ^ (1 - List.length [0]) = 1 from rfl, Finset.sum_range_one]
    unfold transposeVec
    rw [show scatterIdx 1 (permOf 1 [0]) (0 * 1 + 0) = 0 from by decide]
    simp [wCircuit1]
  have h1 : (∑ x ∈ Finset.range (2 ^ wCircuit1.num_qubits),
      Complex.normSq (wCircuit1.state x)) = 1 :=
    C5_unit_norm_invariant.1 1 wCircuit1 rfl
  refine ⟨h1, ?_, ?_⟩
  · exact C5_unit_norm_invariant.2.1 wCircuit1 Xmat [0] [0] wCircuit1X rfl
      Xmat_unitary rfl h1
  · refine C5_unit_norm_invariant.2.2 wCircuit1 none 2 wRng wMeasRes wMeasCircuit [0]
      rfl rfl rfl (by decide) ?_
    intro _
    show 0 < marginalCode 1 [0] wCircuit1.state 0
    rw [hmarg]
    norm_num

/-! ## Claim C4 -/

/-- C4: immediately after a successful `measure` whose final sampled outcome
has positive marginal probability, (a) the full-register amplitudes of every
basis state inconsistent with the outcome on the measured (non-empty) tuple
are zero — so the full-register distribution is supported only on consistent
states — and (b) `probabilities` over the same measured subset returns the
point distribution: 1.0 on the sampled outcome's bit string and 0 on every
other key.  (For the empty tuple, (a) is vacuous — zero measured qubits
constrain nothing — and (b) still holds with the full-register keys.) -/
theorem C4_collapse_roundtrip
    (c : QuantumCircuit) (qubits : Option (List ℤ)) (shots : ℤ)
    (rng : ℕ → ℕ → List ℝ → List ℕ) (qs : List ℕ)
    (res : MeasurementResult) (c' : QuantumCircuit)
    (hq : normaliseQubits c.num_qubits qubits = .ok qs)
    (hmeas : c.measure qubits shots rng = .ok (res, c'))
    (hlen : (measureOutcomes c.num_qubits qs c.state shots.toNat rng).length = shots.toNat)
    (hmem : ∀ o ∈ measureOutcomes c.num_qubits qs c.state shots.toNat rng,
      o < 2 ^ keyLen c.num_qubits qs)
    (hpos : qs ≠ [] → 0 < marginalCode c.num_qubits qs c.state
      ((measureOutcomes c.num_qubits qs c.state shots.toNat rng).getLastD 0)) :
    (∀ x < 2 ^ c.num_qubits, qs ≠ [] →
      rowIdx c.num_qubits qs x ≠
        (measureOutcomes c.num_qubits qs c.state shots.toNat rng).getLastD 0 →
      Complex.normSq (c'.state x) = 0) ∧
    c'.probabilities qubits = .ok ((List.range (2 ^ keyLen c.num_qubits qs)).map
      (fun r => (natToBits (keyLen c.num_qubits qs) r,
        if r = (measureOutcomes c.num_qubits qs c.state shots.toNat rng).getLastD 0
        then 1 else 0))) := by
  obtain ⟨hs, -, hc'⟩ := measure_ok hq hmeas
  have houts_ne : measureOutcomes c.num_qubits qs c.state shots.toNat rng ≠ [] := by
    rw [← List.length_pos, hlen]
    omega
  have hlast : (measureOutcomes c.num_qubits qs c.state shots.toNat rng).getLastD 0 <
      2 ^ keyLen c.num_qubits qs :=
    hmem _ (getLastD_mem _ 0 houts_ne)
  have hv := normaliseQubits_ok_valid hq
  subst hc'
  rw [measureBitstrings_eq, getD_map_range _ _ _ _ hlast]
  have hbit : bitsToNat (natToBits (keyLen c.num_qubits qs)
      ((measureOutcomes c.num_qubits qs c.state shots.toNat rng).getLastD 0)) =
      (measureOutcomes c.num_qubits qs c.state shots.toNat rng).getLastD 0 :=
    bitsToNat_natToBits hlast
  constructor
  · intro x hx hqe hneq
    have hKk : keyLen c.num_qubits qs = qs.length := by
      unfold keyLen
      rw [if_neg (by simpa [List.isEmpty_iff] using hqe)]
    show Complex.normSq (collapseCore c.num_qubits qs (natToBits (keyLen c.num_qubits qs)
      ((measureOutcomes c.num_qubits qs c.state shots.toNat rng).getLastD 0)) c.state x) = 0
    rw [collapseCore_zero_of_ne hv hqe hx (by rw [hbit]; exact hneq), Complex.normSq_zero]
  · show QuantumCircuit.probabilities _ qubits = _
    unfold QuantumCircuit.probabilities
    show (match normaliseQubits c.num_qubits qubits with
      | Except.error e => Except.error e
      | Except.ok qs' => Except.ok (probsList c.num_qubits qs' (collapseCore c.num_qubits qs
          (natToBits (keyLen c.num_qubits qs)
            ((measureOutcomes c.num_qubits qs c.state shots.toNat rng).getLastD 0))
          c.state))) = _
    rw [hq]
    dsimp only
    rw [Except.ok.injEq]
    by_cases hqe : qs = []
    · subst hqe
      have hKn : keyLen c.num_qubits ([] : List ℕ) = c.num_qubits := rfl
      unfold probsList
      rw [if_pos (show ([] : List ℕ).isEmpty = true from rfl)]
      rw [hKn] at hbit hlast ⊢
      apply List.map_congr_left
      intro i hi
      have hi' := List.mem_range.mp hi
      rw [Prod.mk.injEq]
      refine ⟨rfl, ?_⟩
      show Complex.normSq ((collapseCore c.num_qubits [] (natToBits c.num_qubits
        ((measureOutcomes c.num_qubits [] c.state shots.toNat rng).getLastD 0))
        c.state) i) = _
      unfold collapseCore
      rw [if_pos (show ([] : List ℕ).isEmpty = true from rfl)]
      show Complex.normSq (if i = bitsToNat (natToBits c.num_qubits
        ((measureOutcomes c.num_qubits [] c.state shots.toNat rng).getLastD 0))
        then 1 else 0) = _
      rw [hbit]
      by_cases hil : i = (measureOutcomes c.num_qubits [] c.state shots.toNat rng).getLastD 0
      · rw [if_pos hil, if_pos hil, Complex.normSq_one]
      · rw [if_neg hil, if_neg hil, Complex.normSq_zero]
    · have hKk : keyLen c.num_qubits qs = qs.length := by
        unfold keyLen
        rw [if_neg (by simpa [List.isEmpty_iff] using hqe)]
      unfold probsList
      rw [if_neg (by simpa [List.isEmpty_iff] using hqe)]
      rw [hKk] at hbit hlast ⊢
      apply List.map_congr_left
      intro r hr
      have hr' := List.mem_range.mp hr
      rw [Prod.mk.injEq]
      refine ⟨rfl, ?_⟩
      rw [marginalCode_collapseCore hv hqe (by rw [hbit]; exact hlast)
        (by rw [hbit]; exact hpos hqe) hr', hbit]

/-- Witness for C4 at the concrete measurement of the C5 witness. -/
theorem C4_witness :
    Complex.normSq (wMeasCircuit.state 1) = 0 ∧
    wMeasCircuit.probabilities none = .ok
      ((List.range (2 ^ keyLen wCircuit1.num_qubits [0])).map
        (fun r => (natToBits (keyLen wCircuit1.num_qubits [0]) r,
          if r = (measureOutcomes wCircuit1.num_qubits [0] wCircuit1.state (2 : ℤ).toNat
            wRng).getLastD 0 then 1 else 0))) := by
  have hmarg : marginalCode 1 [0] wCircuit1.state 0 = 1 := by
    unfold marginalCode
    rw [show (2 : ℕ) ^ (1 - List.length [0]) = 1 from rfl, Finset.sum_range_one]
    unfold transposeVec
    rw [show scatterIdx 1 (permOf 1 [0]) (0 * 1 + 0) = 0 from by decide]
    simp [wCircuit1]
  have h := C4_collapse_roundtrip wCircuit1 none 2 wRng [0] wMeasRes wMeasCircuit
    rfl rfl rfl (by decide) (fun _ => by
      show 0 < marginalCode 1 [0] wCircuit1.state 0
      rw [hmarg]
      norm_num)
  exact ⟨h.1 1 (by decide) (by decide) (by decide), h.2⟩

/-! ## Claim C10 -/

/-- C10: an explicitly empty qubit list is accepted, not rejected.
`probabilities([])` takes the fast path and returns the full-register
distribution keyed by `n`-bit strings; `measure([], shots, rng)` samples
from that full-register distribution (its keys are the `2^n` full-register
bit strings) and collapses the register to exactly the sampled basis state,
with amplitude exactly `1` at the sampled index and `0` elsewhere —
discarding all pre-existing amplitudes and phases, including the phase of
the surviving component. -/
theorem C10_empty_subset_accepted
    (c : QuantumCircuit) (shots : ℤ) (rng : ℕ → ℕ → List ℝ → List ℕ)
    (hs : 0 < shots)
    (hlen : (measureOutcomes c.num_qubits [] c.state shots.toNat rng).length = shots.toNat)
    (hmem : ∀ o ∈ measureOutcomes c.num_qubits [] c.state shots.toNat rng,
      o < 2 ^ c.num_qubits) :
    c.probabilities (some []) = .ok ((List.range (2 ^ c.num_qubits)).map
      (fun i => (natToBits c.num_qubits i, Complex.normSq (c.state i)))) ∧
    c.measure (some []) shots rng = .ok
      (⟨(List.range (2 ^ c.num_qubits)).map (fun j => (natToBits c.num_qubits j,
          (measureOutcomes c.num_qubits [] c.state shots.toNat rng).count j))⟩,
        ⟨c.num_qubits, fun i =>
          if i = (measureOutcomes c.num_qubits [] c.state shots.toNat rng).getLastD 0
          then 1 else 0⟩) := by
  have hKn : keyLen c.num_qubits ([] : List ℕ) = c.num_qubits := rfl
  have houts_ne : measureOutcomes c.num_qubits [] c.state shots.toNat rng ≠ [] := by
    rw [← List.length_pos, hlen]
    omega
  have hlast : (measureOutcomes c.num_qubits [] c.state shots.toNat rng).getLastD 0 <
      2 ^ c.num_qubits :=
    hmem _ (getLastD_mem _ 0 houts_ne)
  have hKlen := measureBitstrings_length c.num_qubits [] c.state
  constructor
  · rfl
  · unfold QuantumCircuit.measure
    rw [if_neg (by omega),
      show normaliseQubits c.num_qubits (some []) = .ok [] from rfl]
    dsimp only
    rw [Except.ok.injEq, Prod.mk.injEq]
    constructor
    · rw [MeasurementResult.mk.injEq, hKlen]
      apply List.map_congr_left
      intro j hj
      rw [measureBitstrings_eq, getD_map_range _ _ _ _
        (show j < 2 ^ keyLen c.num_qubits [] from List.mem_range.mp hj), hKn]
    · rw [QuantumCircuit.mk.injEq]
      refine ⟨rfl, ?_⟩
      rw [measureBitstrings_eq, getD_map_range _ _ _ _
        (show (measureOutcomes c.num_qubits [] c.state shots.toNat rng).getLastD 0 <
          2 ^ keyLen c.num_qubits [] from hlast)]
      funext i
      show (if ([] : List ℕ).isEmpty = true then (fun i' : ℕ =>
          if i' = bitsToNat (natToBits (keyLen c.num_qubits [])
            ((measureOutcomes c.num_qubits [] c.state shots.toNat rng).getLastD 0))
          then (1 : ℂ) else 0) else _) i = _
      rw [if_pos (show ([] : List ℕ).isEmpty = true from rfl)]
      show (if i = bitsToNat (natToBits (keyLen c.num_qubits [])
          ((measureOutcomes c.num_qubits [] c.state shots.toNat rng).getLastD 0))
        then (1 : ℂ) else 0) = _
      rw [show keyLen c.num_qubits ([] : List ℕ) = c.num_qubits from rfl,
        bitsToNat_natToBits hlast]

/-- Witness for C10 at the concrete input: 1-qubit register `|0⟩`, two
shots, the constant index-0 rng oracle. -/
theorem C10_witness :
    wCircuit1.probabilities (some []) = .ok ((List.range (2 ^ wCircuit1.num_qubits)).map
      (fun i => (natToBits wCircuit1.num_qubits i, Complex.normSq (wCircuit1.state i)))) ∧
    wCircuit1.measure (some []) 2 wRng = .ok
      (⟨(List.range (2 ^ wCircuit1.num_qubits)).map (fun j =>
          (natToBits wCircuit1.num_qubits j,
            (measureOutcomes wCircuit1.num_qubits [] wCircuit1.state (2 : ℤ).toNat
              wRng).count j))⟩,
        ⟨wCircuit1.num_qubits, fun i =>
          if i = (measureOutcomes wCircuit1.num_qubits [] wCircuit1.state (2 : ℤ).toNat
            wRng).getLastD 0 then 1 else 0⟩) :=
  C10_empty_subset_accepted wCircuit1 2 wRng (by decide) rfl (by decide)

/-! ## Claim C9 -/

/-- A fresh 2-qubit register `|00⟩`. -/
def wCircuit2 : QuantumCircuit := ⟨2, fun i => if i = 0 then 1 else 0⟩

/-- The state after `hadamard(0)` on the fresh 2-qubit register. -/
def bellState1 : ℕ → ℂ := applyUnitaryCore 2 Hmat.entry [0] wCircuit2.state

/-- The state after the subsequent `cnot(0, 1)`. -/
def bellState2 : ℕ → ℂ := applyUnitaryCore 2 CNOTmat.entry [0, 1] bellState1

/-- The claim's pipeline: construct, `hadamard(0)`, `cnot(0, 1)`, then read
the full-register distribution. -/
def bellPipeline : Except String (List (List ℕ × ℝ)) :=
  (mkQuantumCircuit 2).bind (fun c =>
    (c.hadamard 0).bind (fun c =>
      (c.cnot 0 1).bind (fun c =>
        c.probabilities none)))

/-- C9: Hadamard on qubit 0 followed by CNOT(0, 1) on a fresh 2-qubit
register yields the Bell distribution — exactly, in the exact arithmetic of
the model: probability 1/2 on "00" and "11", 0 on "01" and "10". -/
theorem C9_bell_state_distribution :
    bellPipeline = .ok [([0, 0], 1 / 2), ([0, 1], 0), ([1, 0], 0), ([1, 1], 1 / 2)] := by
  have hv1 : ValidQubits 2 [0] := ⟨by decide, by decide⟩
  have hv2 : ValidQubits 2 [0, 1] := ⟨by decide, by decide⟩
  have hrow1 : ∀ x ∈ List.range 4, rowIdx 2 [0] x = x / 2 := by decide
  have hsub1 : ∀ x ∈ List.range 4, ∀ y ∈ List.range 2,
      substIdx 2 [0] x y = y * 2 + x % 2 := by decide
  have hψ1 : ∀ x ∈ List.range 4, bellState1 x =
      (if x = 0 ∨ x = 2 then ((1 / Real.sqrt 2 : ℝ) : ℂ) else 0) := by
    intro x hx
    have hx' := List.mem_range.mp hx
    show applyUnitaryCore 2 Hmat.entry [0] wCircuit2.state x = _
    rw [applyUnitaryCore_eq_spec hv1 Hmat.entry wCircuit2.state
      (show x < 2 ^ 2 by omega)]
    unfold applyUnitarySpec
    rw [hrow1 x hx]
    rw [show (2 : ℕ) ^ List.length [0] = 2 from rfl]
    rw [Finset.sum_range_succ, Finset.sum_range_one]
    rw [hsub1 x hx 0 (by decide), hsub1 x hx 1 (by decide)]
    interval_cases x <;> simp [Hmat, wCircuit2]
  have hrow2 : ∀ x ∈ List.range 4, rowIdx 2 [0, 1] x = x := by decide
  have hsub2 : ∀ x ∈ List.range 4, ∀ y ∈ List.range 4,
      substIdx 2 [0, 1] x y = y := by decide
  have hψ2 : ∀ x ∈ List.range 4, bellState2 x =
      (if x = 0 ∨ x = 3 then ((1 / Real.sqrt 2 : ℝ) : ℂ) else 0) := by
    intro x hx
    have hx' := List.mem_range.mp hx
    show applyUnitaryCore 2 CNOTmat.entry [0, 1] bellState1 x = _
    rw [applyUnitaryCore_eq_spec hv2 CNOTmat.entry bellState1
      (show x < 2 ^ 2 by omega)]
    unfold applyUnitarySpec
    rw [hrow2 x hx]
    rw [show (2 : ℕ) ^ List.length [0, 1] = 4 from rfl]
    rw [Finset.sum_range_succ, Finset.sum_range_succ, Finset.sum_range_succ,
      Finset.sum_range_one]
    rw [hsub2 x hx 0 (by decide), hsub2 x hx 1 (by decide), hsub2 x hx 2 (by decide),
      hsub2 x hx 3 (by decide)]
    rw [hψ1 0 (by decide), hψ1 1 (by decide), hψ1 2 (by decide), hψ1 3 (by decide)]
    interval_cases x <;> simp [CNOTmat]
  have hmarg : ∀ r ∈ List.range 4, marginalCode 2 [0, 1] bellState2 r =
      Complex.normSq (bellState2 r) := by
    intro r hr
    unfold marginalCode
    rw [show (2 : ℕ) ^ (2 - List.length [0, 1]) = 1 from rfl, Finset.sum_range_one]
    unfold transposeVec
    have hscat : ∀ r ∈ List.range 4, scatterIdx 2 (permOf 2 [0, 1]) (r * 1 + 0) = r := by
      decide
    rw [hscat r hr]
  have hnormSq : Complex.normSq ((1 / Real.sqrt 2 : ℝ) : ℂ) = 1 / 2 := by
    rw [Complex.normSq_ofReal, div_mul_div_comm, one_mul,
      Real.mul_self_sqrt (show (0 : ℝ) ≤ 2 by norm_num)]
  have hfinal : bellPipeline = Except.ok (probsList 2 [0, 1] bellState2) := rfl
  rw [hfinal, Except.ok.injEq]
  unfold probsList
  rw [if_neg (by decide)]
  rw [show List.range (2 ^ List.length [0, 1]) = [0, 1, 2, 3] from rfl]
  simp only [List.map_cons, List.map_nil]
  rw [hmarg 0 (by decide), hmarg 1 (by decide), hmarg 2 (by decide), hmarg 3 (by decide)]
  rw [hψ2 0 (by decide), hψ2 1 (by decide), hψ2 2 (by decide), hψ2 3 (by decide)]
  norm_num [hnormSq]
  decide
